import Mathlib

/-!
Verification of the distance-vector router in `lab02/roteador.py`.

The development shallowly embeds the router's routing-table engine:
* `initTable` / `routerInit`  — `Router.__init__` (bootstrap of the table);
* `mergeStep` / `receive_update` — the Bellman-Ford relaxation endpoint;
* `buildRedesObj`, `collapse`, `summarize_table` — route summarization
  (`summarize_table` plus the parts of CPython's `ipaddress` module it calls:
  `ip_network`, `collapse_addresses`, `subnet_of`);
* `poisonEntry` / `sendTableTo` — the per-neighbor poison-reverse view built by
  `send_updates_to_neighbors`.

Python dictionaries are modelled as association lists with in-place update
(`updIns`), which preserves both key uniqueness and insertion order, matching
CPython dict semantics.  Costs are modelled as `Int` (Python integers);
addresses as `Nat` below `2 ^ 32`.
-/

namespace Roteador

/-! ### Association lists with Python `dict` semantics -/

/-- `d.get(k)` on an association list: first (unique) matching key. -/
def lookupA {α β : Type} [DecidableEq α] : List (α × β) → α → Option β
  | [], _ => none
  | (k', v) :: rest, k => if k' = k then some v else lookupA rest k

/-- `d[k] = v` on an association list: update in place (keeping the key's
position) when present, append otherwise — CPython dict assignment. -/
def updIns {α β : Type} [DecidableEq α] : List (α × β) → α → β → List (α × β)
  | [], k, v => [(k, v)]
  | (k', v') :: rest, k, v =>
    if k' = k then (k, v) :: rest else (k', v') :: updIns rest k v

theorem lookupA_updIns {α β : Type} [DecidableEq α] (l : List (α × β)) (k d : α) (v : β) :
    lookupA (updIns l k v) d = if k = d then some v else lookupA l d := by
  induction l with
  | nil => simp [updIns, lookupA]
  | cons p rest ih =>
    obtain ⟨k', v'⟩ := p
    simp only [updIns]
    by_cases h : k' = k
    · subst h
      simp only [if_pos rfl, lookupA]
      by_cases h2 : k' = d <;> simp [h2, lookupA]
    · simp only [if_neg h, lookupA, ih]
      by_cases h2 : k' = d
      · subst h2
        have hkd : ¬k = k' := fun hh => h hh.symm
        simp [hkd]
      · simp [h2]

/-! ### IPv4 network prefixes

`Net` models CPython's `IPv4Network`: a base address and a prefix length.
`Valid n` holds for every network `ipaddress` can actually construct:
prefix length at most 32, base aligned to the block size, block inside the
32-bit address space. -/

structure Net where
  base : Nat
  plen : Nat
deriving DecidableEq

/-- Number of addresses in the block: `2 ^ (32 - plen)`. -/
def Net.size (n : Net) : Nat := 2 ^ (32 - n.plen)

/-- `broadcast_address` as an integer: the last address of the block. -/
def Net.bcast (n : Net) : Nat := n.base + n.size - 1

def Net.Valid (n : Net) : Prop :=
  n.plen ≤ 32 ∧ n.size ∣ n.base ∧ n.base + n.size ≤ 2 ^ 32

instance (n : Net) : Decidable n.Valid := by unfold Net.Valid; infer_instance

theorem Net.size_pos (n : Net) : 0 < n.size := Nat.pos_pow_of_pos _ (by omega)

/-- `IPv4Network.supernet()`: drop one bit of prefix, mask the base down to the
enclosing block.  CPython returns `self` unchanged when `prefixlen == 0`. -/
def Net.supernet (n : Net) : Net :=
  if n.plen = 0 then n
  else ⟨n.base / 2 ^ (33 - n.plen) * 2 ^ (33 - n.plen), n.plen - 1⟩

/-- `a.subnet_of(b)` (CPython `_is_subnet_of`): containment by endpoint
comparison. -/
def Net.subnetOf (a b : Net) : Bool :=
  decide (b.base ≤ a.base) && decide (a.bcast ≤ b.bcast)

/-- Addresses covered by a network. -/
def Net.range (n : Net) : Set Nat := Set.Ico n.base (n.base + n.size)

/-- Addresses covered by a list of networks. -/
def cover (l : List Net) : Set Nat := {a | ∃ n ∈ l, a ∈ n.range}

theorem cover_nil : cover [] = ∅ := by
  ext a; simp [cover]

theorem cover_cons (n : Net) (l : List Net) : cover (n :: l) = n.range ∪ cover l := by
  ext a; simp [cover]

theorem cover_append (l₁ l₂ : List Net) : cover (l₁ ++ l₂) = cover l₁ ∪ cover l₂ := by
  ext a
  simp only [cover, Set.mem_setOf_eq, List.mem_append, Set.mem_union]
  constructor
  · rintro ⟨n, hn | hn, hr⟩
    · exact Or.inl ⟨n, hn, hr⟩
    · exact Or.inr ⟨n, hn, hr⟩
  · rintro (⟨n, hn, hr⟩ | ⟨n, hn, hr⟩)
    · exact ⟨n, Or.inl hn, hr⟩
    · exact ⟨n, Or.inr hn, hr⟩

theorem cover_perm {l₁ l₂ : List Net} (h : l₁.Perm l₂) : cover l₁ = cover l₂ := by
  ext a
  simp only [cover, Set.mem_setOf_eq]
  exact ⟨fun ⟨n, hn, hr⟩ => ⟨n, h.mem_iff.mp hn, hr⟩,
    fun ⟨n, hn, hr⟩ => ⟨n, h.mem_iff.mpr hn, hr⟩⟩

/-! ### Parsing (`ipaddress.ip_network(s, strict=False)`)

We model the fragment of CPython's parser that this program's data can
exercise: dotted-quad IPv4 addresses with an optional decimal prefix length
(`'a.b.c.d'` and `'a.b.c.d/p'`).  Octets follow CPython's rules (non-empty,
decimal digits only, at most 3 characters, no leading zeros, at most 255);
the prefix is a decimal number at most 32, and `strict=False` masks the host
bits away.  Every other string — in particular the `'ip:port'` neighbor
addresses, which contain a colon — raises `ValueError` in CPython (they are
not valid IPv6 either) and is mapped to `none` here.  CPython additionally
accepts dotted netmask/hostmask suffixes after the `/`; such keys never occur
in this program (table keys are produced by `str(IPv4Network)` or typed as
CIDR strings). -/

/-- `s.split(c)` on a character list. -/
def splitOnChar (c : Char) : List Char → List (List Char)
  | [] => [[]]
  | x :: xs =>
    match splitOnChar c xs with
    | [] => [[]]
    | y :: ys => if x = c then [] :: y :: ys else (x :: y) :: ys

/-- Non-empty all-decimal-digit string to its value. -/
def parseDigits (s : List Char) : Option Nat :=
  if s.isEmpty then none
  else if s.all Char.isDigit then
    some (s.foldl (fun n c => n * 10 + (c.toNat - 48)) 0)
  else none

/-- CPython `_parse_octet`. -/
def parseOctet (s : List Char) : Option Nat :=
  match parseDigits s with
  | none => none
  | some n =>
    if 3 < s.length then none
    else if s ≠ ['0'] ∧ s.head? = some '0' then none
    else if 255 < n then none
    else some n

/-- CPython `_ip_int_from_string`: exactly four octets. -/
def parseAddr (s : List Char) : Option Nat :=
  match splitOnChar '.' s with
  | [a, b, c, d] =>
    match parseOctet a, parseOctet b, parseOctet c, parseOctet d with
    | some x, some y, some z, some w => some (((x * 256 + y) * 256 + z) * 256 + w)
    | _, _, _, _ => none
  | _ => none

/-- Trailing zero bits of a positive number (`0` for `n = 0`; the `n = 0`
case of CPython's `_count_righthand_zero_bits` is handled by its `bits`
cap). -/
def tz (n : Nat) : Nat :=
  if n = 0 then 0
  else if n % 2 = 1 then 0
  else tz (n / 2) + 1
termination_by n
decreasing_by exact Nat.div_lt_self (by omega) (by omega)

/-- CPython `_count_righthand_zero_bits(number, bits)`:
`bits` when `number == 0`, else `min(bits, (~number & (number-1)).bit_length())`,
i.e. the number of trailing zero bits capped at `bits`. -/
def countRighthandZeroBits (n bits : Nat) : Nat :=
  if n = 0 then bits else min bits (tz n)

/-- CPython `_prefix_from_ip_int`: a mask integer must be ones followed by
zeroes; its prefix length is 32 minus the trailing zero count. -/
def prefixFromIpInt (ip : Nat) : Option Nat :=
  let t := countRighthandZeroBits ip 32
  let pl := 32 - t
  if ip / 2 ^ t = 2 ^ pl - 1 then some pl else none

/-- CPython `_prefix_from_ip_string`: parse a dotted netmask, else retry the
complement as a hostmask. -/
def prefixFromIpStr (s : List Char) : Option Nat :=
  match parseAddr s with
  | none => none
  | some ip =>
    match prefixFromIpInt ip with
    | some pl => some pl
    | none => prefixFromIpInt (2 ^ 32 - 1 - ip)

/-- CPython `_make_netmask` for a string argument: decimal prefix length
(`_prefix_from_prefix_string`, at most 32), falling back to dotted
netmask/hostmask form. -/
def parseMask (s : List Char) : Option Nat :=
  match parseDigits s with
  | some n => if 32 < n then prefixFromIpStr s else some n
  | none => prefixFromIpStr s

/-- Mask the host bits away (`strict=False`). -/
def maskBase (b pl : Nat) : Nat := b / 2 ^ (32 - pl) * 2 ^ (32 - pl)

def parseIPv4Net (s : String) : Option Net :=
  match splitOnChar '/' s.toList with
  | [a] => (parseAddr a).map (fun b => ⟨maskBase b 32, 32⟩)
  | [a, p] =>
    match parseAddr a, parseMask p with
    | some b, some pl => some ⟨maskBase b pl, pl⟩
    | _, _ => none
  | _ => none

theorem parseOctet_le {s : List Char} {n : Nat} (h : parseOctet s = some n) : n ≤ 255 := by
  unfold parseOctet at h
  cases hd : parseDigits s with
  | none => rw [hd] at h; exact absurd h (by simp)
  | some m =>
    rw [hd] at h
    by_cases h1 : 3 < s.length
    · simp [h1] at h
    · by_cases h2 : s ≠ ['0'] ∧ s.head? = some '0'
      · simp [h1, h2] at h
      · by_cases h3 : 255 < m
        · simp [h1, h2, h3] at h
        · simp [h1, h2, h3] at h; omega

theorem parseAddr_lt {s : List Char} {b : Nat} (h : parseAddr s = some b) : b < 2 ^ 32 := by
  unfold parseAddr at h
  rcases hs : splitOnChar '.' s with _ | ⟨a, _ | ⟨b', _ | ⟨c', _ | ⟨d', _ | _⟩⟩⟩⟩ <;>
    rw [hs] at h <;> try simp at h
  obtain ⟨x, hx, y, hy, z, hz, w, hw, hb⟩ :
      ∃ x, parseOctet a = some x ∧ ∃ y, parseOctet b' = some y ∧
        ∃ z, parseOctet c' = some z ∧ ∃ w, parseOctet d' = some w ∧
          b = ((x * 256 + y) * 256 + z) * 256 + w := by
    revert h
    rcases parseOctet a with _ | x <;> rcases parseOctet b' with _ | y <;>
      rcases parseOctet c' with _ | z <;> rcases parseOctet d' with _ | w <;>
      intro h <;> simp_all
  have e1 := parseOctet_le hx
  have e2 := parseOctet_le hy
  have e3 := parseOctet_le hz
  have e4 := parseOctet_le hw
  have : (2 : Nat) ^ 32 = 4294967296 := by norm_num
  omega

theorem dvd_add_le {d a n : Nat} (hd : d ∣ a) (hn : d ∣ n) (h : a < n) :
    a + d ≤ n := by
  have hsub : d ∣ n - a := Nat.dvd_sub' hn hd
  have : d ≤ n - a := Nat.le_of_dvd (by omega) hsub
  omega

theorem maskBase_valid {b pl : Nat} (hb : b < 2 ^ 32) (hpl : pl ≤ 32) :
    Net.Valid ⟨maskBase b pl, pl⟩ := by
  have hdvd2 : (2 : Nat) ^ (32 - pl) ∣ maskBase b pl := by
    unfold maskBase; exact dvd_mul_left _ _
  have hle : maskBase b pl ≤ b := Nat.div_mul_le_self _ _
  refine ⟨hpl, hdvd2, ?_⟩
  show maskBase b pl + 2 ^ (32 - pl) ≤ 2 ^ 32
  have hdvd32 : (2 : Nat) ^ (32 - pl) ∣ 2 ^ 32 := Nat.pow_dvd_pow 2 (by omega)
  exact dvd_add_le hdvd2 hdvd32 (by omega)

theorem prefixFromIpInt_le {ip pl : Nat} (h : prefixFromIpInt ip = some pl) : pl ≤ 32 := by
  unfold prefixFromIpInt at h
  revert h
  by_cases h3 : ip / 2 ^ countRighthandZeroBits ip 32 = 2 ^ (32 - countRighthandZeroBits ip 32) - 1 <;>
    intro h <;> simp [h3] at h
  omega

theorem prefixFromIpStr_le {s : List Char} {pl : Nat} (h : prefixFromIpStr s = some pl) :
    pl ≤ 32 := by
  unfold prefixFromIpStr at h
  split at h
  · simp at h
  · split at h
    · rename_i pl' h1
      cases h
      exact prefixFromIpInt_le h1
    · exact prefixFromIpInt_le h

theorem parseMask_le {s : List Char} {pl : Nat} (h : parseMask s = some pl) : pl ≤ 32 := by
  unfold parseMask at h
  split at h
  · split at h
    · exact prefixFromIpStr_le h
    · rename_i hn
      cases h
      omega
  · exact prefixFromIpStr_le h

theorem parseIPv4Net_valid {s : String} {n : Net} (h : parseIPv4Net s = some n) : n.Valid := by
  unfold parseIPv4Net at h
  rcases hs : splitOnChar '/' s.toList with _ | ⟨a, _ | ⟨p, _ | _⟩⟩ <;>
    rw [hs] at h <;> try simp at h
  · -- no '/': prefix length 32
    revert h
    rcases h1 : parseAddr a with _ | b <;> intro h <;> simp at h
    rw [← h]
    exact maskBase_valid (parseAddr_lt h1) (by omega)
  · -- 'addr/prefix'
    revert h
    rcases h1 : parseAddr a with _ | b <;> rcases h2 : parseMask p with _ | pl <;>
      intro h <;> simp at h
    rw [← h]
    exact maskBase_valid (parseAddr_lt h1) (parseMask_le h2)

/-! ### `ipaddress.collapse_addresses`

CPython splits the input into host networks (`prefixlen == 32`, treated as
bare addresses) and proper networks, sorts and deduplicates the addresses,
summarizes each maximal run of consecutive addresses into minimal CIDR
blocks (`summarize_address_range`), and finally runs
`_collapse_addresses_internal` on blocks + networks: a worklist loop that
merges sibling halves into their supernet, followed by a sorted sweep that
drops subsumed networks. -/

/-- The `isinstance`/`prefixlen` split at the top of `collapse_addresses`:
`/32` networks go to the address list (as their network address), the rest
keep their order in the network list. -/
def splitIpsNets : List Net → List Nat × List Net
  | [] => ([], [])
  | n :: rest =>
    let s := splitIpsNets rest
    if n.plen = 32 then (n.base :: s.1, s.2) else (s.1, n :: s.2)

/-- Inner loop of `_find_address_range`: split a sorted, deduplicated address
list into maximal runs of consecutive addresses. -/
def findRangesGo (first last : Nat) : List Nat → List (Nat × Nat)
  | [] => [(first, last)]
  | ip :: rest =>
    if ip ≠ last + 1 then (first, last) :: findRangesGo ip ip rest
    else findRangesGo first ip rest

def findRanges : List Nat → List (Nat × Nat)
  | [] => []
  | a :: rest => findRangesGo a a rest

/-- Python `int.bit_length`. -/
def bitLen (n : Nat) : Nat := if n = 0 then 0 else Nat.log2 n + 1

/-- CPython `summarize_address_range(first, last)` for IPv4: greedily emit the
largest aligned block starting at `first` that fits in `[first, last]`.
(The final `if first_int - 1 == ip._ALL_ONES: break` guard is redundant over
`Nat` because the loop condition `first <= last < 2^32` already fails.) -/
def sumRange (first last : Nat) : List Net :=
  if first ≤ last then
    let nbits := min (countRighthandZeroBits first 32) (bitLen (last - first + 1) - 1)
    ⟨first, 32 - nbits⟩ :: sumRange (first + 2 ^ nbits) last
  else []
termination_by last + 1 - first
decreasing_by
  have : 0 < 2 ^ min (countRighthandZeroBits first 32) (bitLen (last - first + 1) - 1) :=
    Nat.pos_pow_of_pos _ (by omega)
  omega

theorem Net.supernet_plen_le (n : Net) : n.supernet.plen ≤ n.plen := by
  unfold Net.supernet
  by_cases h : n.plen = 0 <;> simp [h]

/-- Weight used for the termination of the merge loop. -/
def wNet (n : Net) : Nat := 2 * n.plen + 1

theorem perm_cons_eraseP {α : Type} {p : α → Bool} {l : List α} {a : α}
    (h : l.find? p = some a) : l.Perm (a :: l.eraseP p) := by
  induction l with
  | nil => simp [List.find?] at h
  | cons b rest ih =>
    by_cases hb : p b
    · rw [List.find?_cons_of_pos _ hb] at h
      cases h
      rw [List.eraseP_cons_of_pos hb]
    · rw [List.find?_cons_of_neg _ hb] at h
      rw [List.eraseP_cons_of_neg hb]
      exact ((ih h).cons b).trans (List.Perm.swap a b _)

theorem sum_map_eraseP_of_find {p : Net → Bool} {l : List Net} {a : Net}
    (h : l.find? p = some a) :
    ((l.eraseP p).map wNet).sum + wNet a = (l.map wNet).sum := by
  have hp := perm_cons_eraseP h
  have := (hp.map wNet).sum_eq
  simp only [List.map_cons, List.sum_cons] at this
  omega

/-- `_collapse_addresses_internal`'s merge phase.  The Python worklist pops
from the end of `to_merge` and appends; we process the head instead, so the
caller passes the reversed list.  The dict `subnets` always maps
`v.supernet()` to `v`, so we store only the values and look keys up through
`supernet`. -/
def mergeLoop : List Net → List Net → List Net
  | [], subnets => subnets
  | net :: rest, subnets =>
    match hf : subnets.find? (fun v => v.supernet == net.supernet) with
    | none => mergeLoop rest (subnets ++ [net])
    | some existing =>
      if existing = net then mergeLoop rest subnets
      else mergeLoop (net.supernet :: rest)
        (subnets.eraseP (fun v => v.supernet == net.supernet))
termination_by tm sb => ((tm.map wNet).sum + (sb.map wNet).sum, tm.length)
decreasing_by
  · apply Prod.Lex.right'
    · simp [List.sum_append]; omega
    · simp
  · apply Prod.Lex.left
    have : 0 < wNet net := by unfold wNet; omega
    simp; omega
  · apply Prod.Lex.left
    have h1 : ((subnets.eraseP (fun v => v.supernet == net.supernet)).map wNet).sum +
        wNet existing = (subnets.map wNet).sum := sum_map_eraseP_of_find hf
    have h2 : wNet net.supernet ≤ wNet net := by
      unfold wNet
      have := Net.supernet_plen_le net
      omega
    have h3 : 0 < wNet existing := by unfold wNet; omega
    simp only [List.map_cons, List.sum_cons]
    omega

/-- CPython `IPv4Network.__lt__`: by network address, then netmask (i.e.
prefix length). -/
def netLE (a b : Net) : Prop := a.base < b.base ∨ (a.base = b.base ∧ a.plen ≤ b.plen)

instance : DecidableRel netLE := fun a b => by unfold netLE; infer_instance

instance : IsTotal Net netLE := ⟨fun a b => by unfold netLE; omega⟩

instance : IsTrans Net netLE := ⟨fun a b c => by unfold netLE; omega⟩

/-- The final sweep of `_collapse_addresses_internal`: walk the sorted
networks, dropping any whose broadcast address does not exceed the last
yielded one (it is subsumed). -/
def dedupPass : List Net → Option Net → List Net
  | [], _ => []
  | net :: rest, none => net :: dedupPass rest (some net)
  | net :: rest, some lastN =>
    if net.bcast ≤ lastN.bcast then dedupPass rest (some lastN)
    else net :: dedupPass rest (some net)

/-- `ipaddress.collapse_addresses` for a list of IPv4 networks. -/
def collapse (nets : List Net) : List Net :=
  let s := splitIpsNets nets
  let ipsSorted := List.insertionSort (· ≤ ·) s.1.dedup
  let addrs := ((findRanges ipsSorted).map (fun r => sumRange r.1 r.2)).flatten
  dedupPass (List.insertionSort netLE (mergeLoop (addrs ++ s.2).reverse [])) none

/-! ### The router (`lab02/roteador.py`) -/

/-- A routing-table value: `{'cost': ..., 'next_hop': ...}`. -/
structure Entry where
  cost : Int
  next_hop : String
deriving DecidableEq

/-- A received route value; `cost` is `none` when the `"cost"` key is absent
(`info.get("cost", INFINITY)` then defaults). -/
structure RInfo where
  cost : Option Int
deriving DecidableEq

def INFINITY : Int := 16

/-- The `redes_obj` dict of `summarize_table`: parse each key with
`ip_network(net, strict=False)`, skipping unparseable keys
(`except ValueError: continue`); dict assignment keyed by the parsed
network. -/
def buildRedesObj (table : List (String × Entry)) : List (Net × Entry) :=
  table.foldl
    (fun acc kv =>
      match parseIPv4Net kv.1 with
      | none => acc
      | some n => updIns acc n kv.2)
    []

/-- `summarize_table`: collapse the parsed keys; for every collapsed network,
gather the member networks it contains (`subnet_of`), take the minimum cost
(`min` over the costs) and the next hop of the first member attaining it
(Python's `min(..., key=...)` keeps the first minimum). -/
def summarize_table (table : List (String × Entry)) : List (Net × Entry) :=
  let redes_obj := buildRedesObj table
  let summarized := collapse (redes_obj.map (·.1))
  summarized.filterMap
    (fun sum_net =>
      match redes_obj.filter (fun q => q.1.subnetOf sum_net) with
      | [] => none
      | m :: ms =>
        let menor_custo := (ms.map (fun q => q.2.cost)).foldl min m.2.cost
        let melhor_rede := ms.foldl (fun best q => if q.2.cost < best.2.cost then q else best) m
        some (sum_net, ⟨menor_custo, melhor_rede.2.next_hop⟩))

/-- Poison reverse applied to one summarized entry before sending to
`neighbor`: `if info['next_hop'] == neighbor_address: info['cost'] = INFINITY`. -/
def poisonEntry (neighbor : String) (p : Net × Entry) : Net × Entry :=
  if p.2.next_hop = neighbor then (p.1, ⟨INFINITY, p.2.next_hop⟩) else p

/-- The table `send_updates_to_neighbors` sends to one neighbor: deep copy of
the routing table, summarized, then poison-reversed for that neighbor. -/
def sendTableTo (table : List (String × Entry)) (neighbor : String) : List (Net × Entry) :=
  (summarize_table table).map (poisonEntry neighbor)

/-- One iteration of the Bellman-Ford loop of `receive_update` for the route
`(network, info)` advertised by `sender`:
clamp `custo_link + custo_recebido` at `INFINITY`, then insert when unknown,
replace on strict improvement, refresh unconditionally when the current next
hop is the sender, otherwise leave the table unchanged. -/
def mergeStep (custo_link : Int) (sender : String) (t : List (String × Entry))
    (item : String × RInfo) : List (String × Entry) :=
  let custo_recebido := item.2.cost.getD INFINITY
  let novo_custo := custo_link + custo_recebido
  let novo_custo := if INFINITY < novo_custo then INFINITY else novo_custo
  match lookupA t item.1 with
  | none => updIns t item.1 ⟨novo_custo, sender⟩
  | some e =>
    if novo_custo < e.cost then updIns t item.1 ⟨novo_custo, sender⟩
    else if e.next_hop = sender then updIns t item.1 ⟨novo_custo, e.next_hop⟩
    else t

/-- Router state: the immutable neighbor → link-cost dict and the routing
table. -/
structure RouterState where
  neighbors : List (String × Int)
  routing_table : List (String × Entry)
deriving DecidableEq

/-- An inbound JSON body: `sender_address` is `none` when the key is missing
or null, `routing_table` is `none` when the key is missing or its value is
not a dict. -/
structure Payload where
  sender_address : Option String
  routing_table : Option (List (String × RInfo))

/-- The `/receive_update` endpoint.  `none` body models falsy `request.json`;
a falsy (missing or empty) sender address or a non-dict table is rejected
with HTTP 400; an unknown sender is ignored with HTTP 200; otherwise the
Bellman-Ford loop folds over the advertised routes.  Returns
`((status code, status text), new state)`. -/
def receive_update (st : RouterState) (body : Option Payload) :
    (Nat × String) × RouterState :=
  match body with
  | none => ((400, "Invalid request"), st)
  | some p =>
    match p.sender_address, p.routing_table with
    | none, _ => ((400, "Missing sender_address or routing_table"), st)
    | some _, none => ((400, "Missing sender_address or routing_table"), st)
    | some sender, some items =>
      if sender = "" then ((400, "Missing sender_address or routing_table"), st)
      else
        match lookupA st.neighbors sender with
        | none => ((200, "ignored"), st)
        | some custo_link =>
          ((200, "success"),
            { st with routing_table := items.foldl (mergeStep custo_link sender) st.routing_table })

/-- The routing table built by `Router.__init__`: the administered network at
cost 0 with the router's own address as next hop, then one entry per
neighbor at the configured link cost.  No validation of `my_network` is
performed anywhere in the constructor. -/
def initTable (my_network my_address : String) (neighbors : List (String × Int)) :
    List (String × Entry) :=
  neighbors.foldl (fun t nc => updIns t nc.1 ⟨nc.2, nc.1⟩)
    (updIns [] my_network ⟨0, my_address⟩)

/-- `Router.__init__` as a state builder. -/
def routerInit (my_address : String) (neighbors : List (String × Int)) (my_network : String) :
    RouterState :=
  ⟨neighbors, initTable my_network my_address neighbors⟩

/-! ### Helper lemmas about the router operations -/

theorem updIns_append {α β : Type} [DecidableEq α] {l : List (α × β)} {k : α} {v : β}
    (h : k ∉ l.map (·.1)) : updIns l k v = l ++ [(k, v)] := by
  induction l with
  | nil => rfl
  | cons p rest ih =>
    obtain ⟨k', v'⟩ := p
    simp only [List.map_cons, List.mem_cons] at h
    push_neg at h
    have hne : ¬k' = k := fun he => h.1 he.symm
    simp only [updIns, if_neg hne, List.cons_append, List.cons.injEq, true_and]
    exact ih h.2

theorem mergeStep_clamp (custo_link : Int) (x : Int) :
    (if INFINITY < custo_link + x then INFINITY else custo_link + x) =
      min (custo_link + x) INFINITY := by
  unfold INFINITY
  rcases le_or_lt (custo_link + x) 16 with h | h
  · rw [if_neg (by omega), min_eq_left h]
  · rw [if_pos h, min_eq_right (by omega)]

theorem foldl_updIns_append (neighbors : List (String × Int)) (acc : List (String × Entry))
    (hd : (neighbors.map (·.1)).Nodup) (hdisj : ∀ nc ∈ neighbors, nc.1 ∉ acc.map (·.1)) :
    neighbors.foldl (fun t nc => updIns t nc.1 ⟨nc.2, nc.1⟩) acc =
      acc ++ neighbors.map (fun nc => (nc.1, ⟨nc.2, nc.1⟩)) := by
  induction neighbors generalizing acc with
  | nil => simp
  | cons nc rest ih =>
    simp only [List.foldl_cons]
    rw [updIns_append (hdisj nc (by simp))]
    have hd2 : (rest.map (·.1)).Nodup ∧ nc.1 ∉ rest.map (·.1) := by
      simp only [List.map_cons, List.nodup_cons] at hd
      exact ⟨hd.2, hd.1⟩
    have hdisj' : ∀ mc ∈ rest, mc.1 ∉ (acc ++ [(nc.1, Entry.mk nc.2 nc.1)]).map (·.1) := by
      intro mc hmc
      simp only [List.map_append, List.mem_append, List.map_cons, List.map_nil,
        List.mem_singleton]
      rintro (hin | hin)
      · exact hdisj mc (by simp [hmc]) hin
      · exact hd2.2 (hin ▸ List.mem_map_of_mem (·.1) hmc)
    rw [ih _ hd2.1 hdisj']
    simp

theorem mergeStep_bound {custo_link : Int} {sender : String} {t : List (String × Entry)}
    (item : String × RInfo) (ht : ∀ d e, lookupA t d = some e → e.cost ≤ INFINITY) :
    ∀ d e', lookupA (mergeStep custo_link sender t item) d = some e' → e'.cost ≤ INFINITY := by
  intro d e' h
  revert h
  simp only [mergeStep]
  set novo : Int :=
    if INFINITY < custo_link + item.2.cost.getD INFINITY then INFINITY
    else custo_link + item.2.cost.getD INFINITY with hnovo
  have hnle : novo ≤ INFINITY := by rw [hnovo]; split <;> omega
  split
  · rw [lookupA_updIns]
    split
    · rintro ⟨rfl⟩
      exact hnle
    · exact fun h => ht d e' h
  · split
    · rw [lookupA_updIns]
      split
      · rintro ⟨rfl⟩
        exact hnle
      · exact fun h => ht d e' h
    · split
      · rw [lookupA_updIns]
        split
        · rintro ⟨rfl⟩
          exact hnle
        · exact fun h => ht d e' h
      · exact fun h => ht d e' h

/-! ### Claim theorems -/

/-- C1: for a valid advertisement (sender known with direct link cost
`custo_link`, non-empty sender), `receive_update` folds the relaxation step
over the advertised entries, and each step computes
`candidate_cost = min(custo_link + info.cost, INFINITY)` and then: inserts
`{candidate_cost, sender}` when the prefix is absent; replaces on strict
improvement; overwrites the cost (even when equal or worse) when the current
next hop is the sender; otherwise leaves the entry unchanged. -/
theorem c1_relaxation_rule (st : RouterState) (sender : String) (custo_link : Int)
    (items : List (String × RInfo)) (hne : sender ≠ "")
    (hnb : lookupA st.neighbors sender = some custo_link) :
    receive_update st (some ⟨some sender, some items⟩) =
      ((200, "success"),
        { st with routing_table := items.foldl (mergeStep custo_link sender) st.routing_table }) ∧
    ∀ (t : List (String × Entry)) (network : String) (info : RInfo),
      (lookupA t network = none →
        mergeStep custo_link sender t (network, info) =
          updIns t network ⟨min (custo_link + info.cost.getD INFINITY) INFINITY, sender⟩) ∧
      (∀ e, lookupA t network = some e →
        min (custo_link + info.cost.getD INFINITY) INFINITY < e.cost →
        mergeStep custo_link sender t (network, info) =
          updIns t network ⟨min (custo_link + info.cost.getD INFINITY) INFINITY, sender⟩) ∧
      (∀ e, lookupA t network = some e →
        ¬min (custo_link + info.cost.getD INFINITY) INFINITY < e.cost →
        e.next_hop = sender →
        mergeStep custo_link sender t (network, info) =
          updIns t network ⟨min (custo_link + info.cost.getD INFINITY) INFINITY, sender⟩) ∧
      (∀ e, lookupA t network = some e →
        ¬min (custo_link + info.cost.getD INFINITY) INFINITY < e.cost →
        e.next_hop ≠ sender →
        mergeStep custo_link sender t (network, info) = t) := by
  constructor
  · simp only [receive_update, if_neg hne, hnb]
  · intro t network info
    have hc := mergeStep_clamp custo_link (info.cost.getD INFINITY)
    refine ⟨?_, ?_, ?_, ?_⟩
    · intro hnone
      simp only [mergeStep, hnone, hc]
    · intro e he hlt
      simp only [mergeStep, he, hc, if_pos hlt]
    · intro e he hge hnh
      simp [mergeStep, he, hc, if_neg hge, hnh]
    · intro e he hge hnh
      simp only [mergeStep, he, hc, if_neg hge, if_neg hnh]

theorem c1_relaxation_rule_witness :
    receive_update ⟨[("127.0.0.1:5001", 1)], []⟩
        (some ⟨some "127.0.0.1:5001", some [("10.0.9.0/24", ⟨some 3⟩)]⟩) =
      ((200, "success"),
        ⟨[("127.0.0.1:5001", 1)], [("10.0.9.0/24", ⟨4, "127.0.0.1:5001"⟩)]⟩) ∧
    mergeStep 1 "127.0.0.1:5001" [] ("10.0.9.0/24", ⟨some 3⟩) =
      updIns [] "10.0.9.0/24" ⟨min (1 + (3 : Int)) INFINITY, "127.0.0.1:5001"⟩ := by
  have h := c1_relaxation_rule ⟨[("127.0.0.1:5001", 1)], []⟩ "127.0.0.1:5001" 1
    [("10.0.9.0/24", ⟨some 3⟩)] (by decide) (by decide)
  refine ⟨?_, ?_⟩
  · rw [h.1]
    decide
  · exact (h.2 [] "10.0.9.0/24" ⟨some 3⟩).1 rfl

/-- C2 amended: the table sent to neighbor `N` (summarize, then poison
reverse) contains no entry whose **own** next hop is `N` and whose cost is
finite: every such entry's cost has been overwritten with `INFINITY = 16`.
(The stronger reading — no finite cost for any prefix whose next hop *in
the routing table* is `N` — fails; see `c2_poison_reverse_counterexample`:
summarization may cover such a prefix with a cheaper member's next hop,
which is not poisoned.) -/
theorem c2_poison_reverse (table : List (String × Entry)) (neighbor : String) :
    (sendTableTo table neighbor).all
      (fun p => !(p.2.next_hop == neighbor) || (p.2.cost == INFINITY)) = true := by
  unfold sendTableTo
  rw [List.all_eq_true]
  intro p hp
  rw [List.mem_map] at hp
  obtain ⟨q, _, rfl⟩ := hp
  unfold poisonEntry
  split
  · simp
  · next hne => simp [hne]

/-- C6: an advertisement from a sender that is not a key of the neighbor
dict leaves the state (hence the routing table) unchanged and yields
`"ignored"` with HTTP 200. -/
theorem c6_unknown_sender_ignored (st : RouterState) (sender : String)
    (items : List (String × RInfo)) (hne : sender ≠ "")
    (hnb : lookupA st.neighbors sender = none) :
    receive_update st (some ⟨some sender, some items⟩) = ((200, "ignored"), st) := by
  simp only [receive_update, if_neg hne, hnb]

theorem c6_unknown_sender_ignored_witness :
    receive_update ⟨[("127.0.0.1:5001", 1)], [("10.0.1.0/24", ⟨0, "me"⟩)]⟩
        (some ⟨some "127.0.0.1:9999", some [("10.0.9.0/24", ⟨some 3⟩)]⟩) =
      ((200, "ignored"), ⟨[("127.0.0.1:5001", 1)], [("10.0.1.0/24", ⟨0, "me"⟩)]⟩) :=
  c6_unknown_sender_ignored ⟨[("127.0.0.1:5001", 1)], [("10.0.1.0/24", ⟨0, "me"⟩)]⟩
    "127.0.0.1:9999" [("10.0.9.0/24", ⟨some 3⟩)] (by decide) (by decide)

/-- C7: a payload missing the sender address or whose routing table is not a
mapping is rejected with HTTP 400 and the state is exactly as before. -/
theorem c7_malformed_rejected (st : RouterState) (p : Payload)
    (h : p.sender_address = none ∨ p.routing_table = none) :
    (receive_update st (some p)).1.1 = 400 ∧ (receive_update st (some p)).2 = st := by
  obtain ⟨sa, rt⟩ := p
  rcases h with h | h <;> simp only at h <;> subst h
  · simp [receive_update]
  · rcases sa with _ | s
    · simp [receive_update]
    · by_cases hs : s = "" <;> simp [receive_update, hs]

theorem c7_malformed_rejected_witness :
    (receive_update ⟨[("127.0.0.1:5001", 1)], [("10.0.1.0/24", ⟨0, "me"⟩)]⟩
        (some ⟨none, some []⟩)).1.1 = 400 ∧
    (receive_update ⟨[("127.0.0.1:5001", 1)], [("10.0.1.0/24", ⟨0, "me"⟩)]⟩
        (some ⟨none, some []⟩)).2 = ⟨[("127.0.0.1:5001", 1)], [("10.0.1.0/24", ⟨0, "me"⟩)]⟩ :=
  c7_malformed_rejected ⟨[("127.0.0.1:5001", 1)], [("10.0.1.0/24", ⟨0, "me"⟩)]⟩
    ⟨none, some []⟩ (Or.inl rfl)

/-- C8: after construction the routing table is exactly the self entry (the
administered network at cost 0 with the router's own address as next hop)
followed by one entry per configured neighbor at its configured link cost
with itself as next hop — nothing else. -/
theorem c8_bootstrap_table (my_network my_address : String)
    (neighbors : List (String × Int)) (hnodup : (neighbors.map (·.1)).Nodup)
    (hnot : my_network ∉ neighbors.map (·.1)) :
    (routerInit my_address neighbors my_network).routing_table =
      (my_network, ⟨0, my_address⟩) ::
        neighbors.map (fun nc => (nc.1, ⟨nc.2, nc.1⟩)) := by
  show initTable my_network my_address neighbors = _
  unfold initTable
  rw [show updIns ([] : List (String × Entry)) my_network ⟨0, my_address⟩ =
    [(my_network, ⟨0, my_address⟩)] from rfl]
  rw [foldl_updIns_append neighbors _ hnodup]
  · simp
  · intro nc hnc
    simp only [List.map_cons, List.map_nil, List.mem_singleton]
    intro he
    exact hnot (he ▸ List.mem_map_of_mem (·.1) hnc)

theorem c8_bootstrap_table_witness :
    (routerInit "127.0.0.1:5000" [("127.0.0.1:5001", 5), ("127.0.0.1:5002", 10)]
        "10.0.1.0/24").routing_table =
      [("10.0.1.0/24", ⟨0, "127.0.0.1:5000"⟩),
       ("127.0.0.1:5001", ⟨5, "127.0.0.1:5001"⟩),
       ("127.0.0.1:5002", ⟨10, "127.0.0.1:5002"⟩)] :=
  c8_bootstrap_table "10.0.1.0/24" "127.0.0.1:5000"
    [("127.0.0.1:5001", 5), ("127.0.0.1:5002", 10)] (by decide) (by decide)

/-- C9: with a non-negative link cost and non-negative received costs, a
destination's stored cost never increases across a relaxation step unless
its current next hop is the advertising sender (rule 5), and folding any
advertisement list over a table whose costs are at most `INFINITY = 16`
keeps every stored cost at most `INFINITY`. -/
theorem c9_relaxation_monotone (custo_link : Int) (sender : String)
    (hcl : 0 ≤ custo_link) :
    (∀ (t : List (String × Entry)) (item : String × RInfo),
      0 ≤ item.2.cost.getD INFINITY →
      ∀ d e e', lookupA t d = some e →
        lookupA (mergeStep custo_link sender t item) d = some e' →
        e.next_hop ≠ sender → e'.cost ≤ e.cost) ∧
    (∀ (items : List (String × RInfo)) (t : List (String × Entry)),
      (∀ d e, lookupA t d = some e → e.cost ≤ INFINITY) →
      ∀ d e', lookupA (items.foldl (mergeStep custo_link sender) t) d = some e' →
        e'.cost ≤ INFINITY) := by
  constructor
  · intro t item _ d e e' he he' hnh
    revert he'
    simp only [mergeStep]
    set novo : Int :=
      if INFINITY < custo_link + item.2.cost.getD INFINITY then INFINITY
      else custo_link + item.2.cost.getD INFINITY with hnovo
    split
    · next hnone =>
      rw [lookupA_updIns]
      split
      · next heq => rw [← heq, hnone] at he; cases he
      · intro he'
        rw [he] at he'
        cases he'
        exact le_refl _
    · next f hsome =>
      split
      · next hlt =>
        rw [lookupA_updIns]
        split
        · next heq =>
          rw [← heq, hsome] at he
          cases he
          rintro ⟨rfl⟩
          exact le_of_lt hlt
        · intro he'
          rw [he] at he'
          cases he'
          exact le_refl _
      · split
        · next hnhs =>
          rw [lookupA_updIns]
          split
          · next heq =>
            rw [← heq, hsome] at he
            cases he
            exact absurd hnhs hnh
          · intro he'
            rw [he] at he'
            cases he'
            exact le_refl _
        · intro he'
          rw [he] at he'
          cases he'
          exact le_refl _
  · intro items
    induction items with
    | nil =>
      intro t ht d e' he'
      exact ht d e' he'
    | cons item rest ih =>
      intro t ht d e' he'
      exact ih (mergeStep custo_link sender t item) (mergeStep_bound item ht) d e' he'

theorem c9_relaxation_monotone_witness :
    (Entry.mk 2 "127.0.0.1:5001").cost ≤ (Entry.mk 3 "M").cost :=
  (c9_relaxation_monotone 1 "127.0.0.1:5001" (by decide)).1
    [("10.0.9.0/24", ⟨3, "M"⟩)] ("10.0.9.0/24", ⟨some 1⟩) (by decide)
    "10.0.9.0/24" ⟨3, "M"⟩ ⟨2, "127.0.0.1:5001"⟩ (by decide) (by decide) (by decide)

theorem buildRedesObj_skip (t₁ t₂ : List (String × Entry)) (k : String) (e : Entry)
    (hk : parseIPv4Net k = none) :
    buildRedesObj (t₁ ++ (k, e) :: t₂) = buildRedesObj (t₁ ++ t₂) := by
  unfold buildRedesObj
  rw [List.foldl_append, List.foldl_append, List.foldl_cons]
  simp only [hk]

theorem summarize_skip (t₁ t₂ : List (String × Entry)) (k : String) (e : Entry)
    (hk : parseIPv4Net k = none) :
    summarize_table (t₁ ++ (k, e) :: t₂) = summarize_table (t₁ ++ t₂) := by
  unfold summarize_table
  rw [buildRedesObj_skip t₁ t₂ k e hk]

/-- C5: a table entry whose key does not parse as a CIDR network — such as
the bootstrap entries keyed by `'ip:port'` neighbor addresses — is silently
dropped by `summarize_table` (it contributes nothing to the summarized
result), so it never appears in the table advertised to any neighbor. -/
theorem c5_unparseable_keys_omitted (t₁ t₂ : List (String × Entry)) (k : String) (e : Entry)
    (hk : parseIPv4Net k = none) :
    summarize_table (t₁ ++ (k, e) :: t₂) = summarize_table (t₁ ++ t₂) ∧
    (∀ neighbor, sendTableTo (t₁ ++ (k, e) :: t₂) neighbor =
      sendTableTo (t₁ ++ t₂) neighbor) ∧
    parseIPv4Net "127.0.0.1:5001" = none := by
  refine ⟨summarize_skip t₁ t₂ k e hk, ?_, rfl⟩
  intro neighbor
  unfold sendTableTo
  rw [summarize_skip t₁ t₂ k e hk]

theorem c5_unparseable_keys_omitted_witness :
    summarize_table [("10.0.1.0/24", ⟨0, "me"⟩), ("127.0.0.1:5001", ⟨5, "127.0.0.1:5001"⟩)] =
      summarize_table [("10.0.1.0/24", ⟨0, "me"⟩)] :=
  (c5_unparseable_keys_omitted [("10.0.1.0/24", ⟨0, "me"⟩)] []
    "127.0.0.1:5001" ⟨5, "127.0.0.1:5001"⟩ rfl).1

/-- C10 counterexample: contrary to the claim, bootstrap does not fail on a
malformed administered network.  `Router.__init__` performs no validation:
constructing a router whose administered network is the unparseable string
`"banana"` succeeds and stores it as an ordinary cost-0 table entry. -/
theorem c10_counterexample :
    parseIPv4Net "banana" = none ∧
    routerInit "127.0.0.1:5000" [("127.0.0.1:5001", 1)] "banana" =
      ⟨[("127.0.0.1:5001", 1)],
       [("banana", ⟨0, "127.0.0.1:5000"⟩), ("127.0.0.1:5001", ⟨1, "127.0.0.1:5001"⟩)]⟩ :=
  ⟨rfl, rfl⟩

/-- C10 amended: node construction never fails; the administered network is
stored as the cost-0 self entry even when it is not parseable as CIDR (it is
later dropped by summarization, see C5). -/
theorem c10_no_validation (my_network my_address : String)
    (neighbors : List (String × Int)) (hmal : parseIPv4Net my_network = none)
    (hnodup : (neighbors.map (·.1)).Nodup) (hnot : my_network ∉ neighbors.map (·.1)) :
    (routerInit my_address neighbors my_network).routing_table =
      (my_network, ⟨0, my_address⟩) ::
        neighbors.map (fun nc => (nc.1, ⟨nc.2, nc.1⟩)) := by
  show initTable my_network my_address neighbors = _
  unfold initTable
  rw [show updIns ([] : List (String × Entry)) my_network ⟨0, my_address⟩ =
    [(my_network, ⟨0, my_address⟩)] from rfl]
  rw [foldl_updIns_append neighbors _ hnodup]
  · simp
  · intro nc hnc
    simp only [List.map_cons, List.map_nil, List.mem_singleton]
    intro he
    exact hnot (he ▸ List.mem_map_of_mem (·.1) hnc)

theorem c10_no_validation_witness :
    (routerInit "127.0.0.1:5000" [("127.0.0.1:5001", 1)] "banana").routing_table =
      [("banana", ⟨0, "127.0.0.1:5000"⟩), ("127.0.0.1:5001", ⟨1, "127.0.0.1:5001"⟩)] :=
  c10_no_validation "banana" "127.0.0.1:5000" [("127.0.0.1:5001", 1)] rfl
    (by decide) (by decide)

/-! ### Arithmetic of network blocks -/

theorem Net.mem_range {n : Net} {a : Nat} : a ∈ n.range ↔ n.base ≤ a ∧ a < n.base + n.size :=
  Iff.rfl

theorem Net.base_mem_range (n : Net) : n.base ∈ n.range :=
  ⟨le_refl _, by have := n.size_pos; omega⟩

theorem Net.subnetOf_iff {a b : Net} :
    a.subnetOf b = true ↔ b.base ≤ a.base ∧ a.base + a.size ≤ b.base + b.size := by
  unfold Net.subnetOf Net.bcast
  have ha := a.size_pos
  have hb := b.size_pos
  constructor
  · intro h
    simp only [Bool.and_eq_true, decide_eq_true_eq] at h
    omega
  · intro h
    simp only [Bool.and_eq_true, decide_eq_true_eq]
    omega

theorem Net.range_subset_of_subnetOf {a b : Net} (h : a.subnetOf b = true) :
    a.range ⊆ b.range := by
  rw [Net.subnetOf_iff] at h
  exact Set.Ico_subset_Ico h.1 h.2

theorem Net.subnetOf_trans {a b c : Net} (h₁ : a.subnetOf b = true)
    (h₂ : b.subnetOf c = true) : a.subnetOf c = true := by
  rw [Net.subnetOf_iff] at h₁ h₂ ⊢
  omega

theorem range_subset_cover {n : Net} {l : List Net} (h : n ∈ l) : n.range ⊆ cover l :=
  fun a ha => ⟨n, h, ha⟩

/-- For an aligned base, the offset inside the twice-larger block is `0` or
the block size. -/
theorem mod_double_of_dvd {x sz : Nat} (hd : sz ∣ x) (hsz : 0 < sz) :
    x % (2 * sz) = 0 ∨ x % (2 * sz) = sz := by
  obtain ⟨q, rfl⟩ := hd
  rw [Nat.mul_comm 2 sz, Nat.mul_mod_mul_left]
  rcases Nat.mod_two_eq_zero_or_one q with h | h <;> rw [h] <;> simp

theorem Net.supernet_plen {n : Net} (h : n.plen ≠ 0) : n.supernet.plen = n.plen - 1 := by
  unfold Net.supernet
  rw [if_neg h]

theorem Net.supernet_base {n : Net} (h : n.plen ≠ 0) :
    n.supernet.base = n.base / 2 ^ (33 - n.plen) * 2 ^ (33 - n.plen) := by
  unfold Net.supernet
  rw [if_neg h]

/-- For a valid network with positive prefix length, the supernet has twice
the size and its base is the base rounded down to the larger block;
the offset is `0` or the size. -/
theorem Net.supernet_decomp {n : Net} (hv : n.Valid) (h : n.plen ≠ 0) :
    n.supernet.size = 2 * n.size ∧
    n.supernet.base = n.base - n.base % (2 * n.size) ∧
    (n.base % (2 * n.size) = 0 ∨ n.base % (2 * n.size) = n.size) := by
  obtain ⟨hpl, hdvd, hbound⟩ := hv
  have h33 : 33 - n.plen = (32 - n.plen) + 1 := by omega
  have hsz : (2 : Nat) ^ (33 - n.plen) = 2 * n.size := by
    rw [h33, Nat.pow_succ]
    unfold Net.size
    ring
  refine ⟨?_, ?_, mod_double_of_dvd hdvd n.size_pos⟩
  · show (2 : Nat) ^ (32 - n.supernet.plen) = 2 * n.size
    rw [Net.supernet_plen h, show 32 - (n.plen - 1) = 33 - n.plen by omega, hsz]
  · rw [Net.supernet_base h, hsz]
    have hdm := Nat.div_add_mod n.base (2 * n.size)
    rw [Nat.mul_comm] at hdm
    omega

theorem Net.supernet_valid {n : Net} (hv : n.Valid) : n.supernet.Valid := by
  by_cases h : n.plen = 0
  · unfold Net.supernet
    rwa [if_pos h]
  · obtain ⟨hsz, hbase, hmod⟩ := Net.supernet_decomp hv h
    obtain ⟨hpl, hdvd, hbound⟩ := hv
    have hszpos := n.size_pos
    have hdm := Nat.div_add_mod n.base (2 * n.size)
    rw [Nat.mul_comm] at hdm
    have hdvd32 : 2 * n.size ∣ 2 ^ 32 := by
      have h33 : (2 : Nat) ^ (33 - n.plen) = 2 * n.size := by
        rw [show 33 - n.plen = (32 - n.plen) + 1 by omega, Nat.pow_succ]
        unfold Net.size
        ring
      rw [← h33]
      exact Nat.pow_dvd_pow 2 (by omega)
    refine ⟨by rw [Net.supernet_plen h]; omega, ?_, ?_⟩
    · rw [hsz, hbase]
      have heq : n.base - n.base % (2 * n.size) = n.base / (2 * n.size) * (2 * n.size) := by
        omega
      rw [heq]
      exact dvd_mul_left _ _
    · rw [hsz, hbase]
      rcases hmod with hm | hm
      · -- the base is aligned to the double block; step up inside `2 ^ 32`
        have hdvd2 : 2 * n.size ∣ n.base := Nat.dvd_of_mod_eq_zero hm
        have := dvd_add_le hdvd2 hdvd32 (by omega)
        omega
      · have := Nat.mod_le n.base (2 * n.size)
        omega

/-- The containment `n ⊆ n.supernet` as endpoint arithmetic. -/
theorem Net.subnetOf_supernet {n : Net} (hv : n.Valid) : n.subnetOf n.supernet = true := by
  by_cases h : n.plen = 0
  · rw [Net.subnetOf_iff]
    unfold Net.supernet
    rw [if_pos h]
    omega
  · obtain ⟨hsz, hbase, hmod⟩ := Net.supernet_decomp hv h
    rw [Net.subnetOf_iff, hsz, hbase]
    rcases hmod with hm | hm <;> omega

theorem Net.range_subset_supernet {n : Net} (hv : n.Valid) : n.range ⊆ n.supernet.range :=
  Net.range_subset_of_subnetOf (Net.subnetOf_supernet hv)

/-- Two distinct valid networks with the same supernet and positive equal
prefix lengths are exactly the two halves of that supernet. -/
theorem sibling_union {a b : Net} (hva : a.Valid) (hvb : b.Valid)
    (hne : a ≠ b) (hpa : a.plen ≠ 0) (hpb : b.plen ≠ 0)
    (hpl : a.plen = b.plen) (hsup : a.supernet = b.supernet) :
    a.range ∪ b.range = a.supernet.range := by
  obtain ⟨hsa, hba, hma⟩ := Net.supernet_decomp hva hpa
  obtain ⟨hsb, hbb, hmb⟩ := Net.supernet_decomp hvb hpb
  have hsize : a.size = b.size := by unfold Net.size; rw [hpl]
  have hbase_ne : a.base ≠ b.base := by
    intro he
    exact hne (by cases a; cases b; simp_all)
  have hsupb : a.base - a.base % (2 * a.size) = b.base - b.base % (2 * a.size) :=
    calc a.base - a.base % (2 * a.size) = a.supernet.base := hba.symm
      _ = b.supernet.base := by rw [hsup]
      _ = b.base - b.base % (2 * b.size) := hbb
      _ = b.base - b.base % (2 * a.size) := by rw [hsize]
  have hapos := a.size_pos
  have hla := Nat.mod_le a.base (2 * a.size)
  have hlb := Nat.mod_le b.base (2 * a.size)
  -- one offset is 0 and the other is the size
  have hcases : (a.base % (2 * a.size) = 0 ∧ b.base % (2 * a.size) = a.size) ∨
      (a.base % (2 * a.size) = a.size ∧ b.base % (2 * a.size) = 0) := by
    rw [← hsize] at hmb
    rcases hma with h1 | h1 <;> rcases hmb with h2 | h2 <;> first
      | (left; exact ⟨h1, h2⟩)
      | (right; exact ⟨h1, h2⟩)
      | (exfalso; apply hbase_ne; omega)
  unfold Net.range
  rw [hsa, hba, ← hsize]
  rcases hcases with ⟨h1, h2⟩ | ⟨h1, h2⟩
  · have he1 : a.base + a.size = b.base := by omega
    have he2 : a.base - a.base % (2 * a.size) = a.base := by omega
    rw [he2, ← he1, show a.base + 2 * a.size = (a.base + a.size) + a.size by ring]
    exact Set.Ico_union_Ico_eq_Ico (by omega) (by omega)
  · have he1 : b.base + a.size = a.base := by omega
    have he2 : a.base - a.base % (2 * a.size) = b.base := by omega
    rw [he2, Set.union_comm, ← he1, show b.base + 2 * a.size = (b.base + a.size) + a.size by ring]
    exact Set.Ico_union_Ico_eq_Ico (by omega) (by omega)

/-- Same case analysis as `sibling_union`, stated on the endpoints: two
distinct valid networks with the same supernet and equal positive prefix
lengths are adjacent halves. -/
theorem sibling_bases {a b : Net} (hva : a.Valid) (hvb : b.Valid)
    (hne : a ≠ b) (hpa : a.plen ≠ 0) (hpb : b.plen ≠ 0)
    (hpl : a.plen = b.plen) (hsup : a.supernet = b.supernet) :
    a.base + a.size = b.base ∨ b.base + a.size = a.base := by
  obtain ⟨hsa, hba, hma⟩ := Net.supernet_decomp hva hpa
  obtain ⟨hsb, hbb, hmb⟩ := Net.supernet_decomp hvb hpb
  have hsize : a.size = b.size := by unfold Net.size; rw [hpl]
  have hbase_ne : a.base ≠ b.base := by
    intro he
    exact hne (by cases a; cases b; simp_all)
  have hsupb : a.base - a.base % (2 * a.size) = b.base - b.base % (2 * a.size) :=
    calc a.base - a.base % (2 * a.size) = a.supernet.base := hba.symm
      _ = b.supernet.base := by rw [hsup]
      _ = b.base - b.base % (2 * b.size) := hbb
      _ = b.base - b.base % (2 * a.size) := by rw [hsize]
  have hapos := a.size_pos
  have hla := Nat.mod_le a.base (2 * a.size)
  have hlb := Nat.mod_le b.base (2 * a.size)
  rw [← hsize] at hmb
  rcases hma with h1 | h1 <;> rcases hmb with h2 | h2 <;> omega

/-- The union step performed by one merge of `_collapse_addresses_internal`:
whatever the relative shapes of `net` and the colliding dict entry, their
ranges union to the supernet's range. -/
theorem merge_union {net existing : Net} (hvn : net.Valid) (hve : existing.Valid)
    (hne : existing ≠ net) (hsup : existing.supernet = net.supernet) :
    net.range ∪ existing.range = net.supernet.range := by
  by_cases hp : net.plen = 0
  · have hsup_eq : net.supernet = net := by unfold Net.supernet; rw [if_pos hp]
    rw [hsup_eq]
    have hsub : existing.range ⊆ net.range := by
      have hq : existing.plen ≠ 0 := by
        intro hq0
        apply hne
        have he : existing.supernet = existing := by unfold Net.supernet; rw [if_pos hq0]
        exact he.symm.trans (hsup.trans hsup_eq)
      have h1 := Net.range_subset_supernet hve
      rwa [hsup, hsup_eq] at h1
    rw [Set.union_eq_self_of_subset_right hsub]
  · by_cases hq : existing.plen = 0
    · have he : existing.supernet = existing := by unfold Net.supernet; rw [if_pos hq]
      have hex : existing = net.supernet := by rw [← he, hsup]
      rw [← hex]
      have hsub : net.range ⊆ existing.range := by
        have h1 := Net.range_subset_supernet hvn
        rwa [← hex] at h1
      rw [Set.union_eq_self_of_subset_left hsub]
    · have hpl : existing.plen = net.plen := by
        have h1 := Net.supernet_plen hp
        have h2 := Net.supernet_plen hq
        rw [hsup] at h2
        omega
      rw [Set.union_comm, ← hsup]
      exact sibling_union hve hvn hne hq hp hpl hsup

/-- "Disjoint and non-adjacent": the two address ranges are separated by a
non-empty gap. -/
def sep (a b : Net) : Prop := a.base + a.size < b.base ∨ b.base + b.size < a.base

instance (a b : Net) : Decidable (sep a b) := by unfold sep; infer_instance

theorem sep_symm {a b : Net} (h : sep a b) : sep b a := h.symm

theorem sep_symmetric : Symmetric sep := fun _ _ h => sep_symm h

theorem not_sep_of_subset {a b : Net} (h : a.range ⊆ b.range) : ¬sep a b ∧ ¬sep b a := by
  have hm := h a.base_mem_range
  rw [Net.mem_range] at hm
  have ha := a.size_pos
  have hb := b.size_pos
  unfold sep
  omega

/-- Two networks that collide in the merge dict are never strictly
separated: they are nested or adjacent siblings. -/
theorem colliding_not_sep {net existing : Net} (hvn : net.Valid) (hve : existing.Valid)
    (hne : existing ≠ net) (hsup : existing.supernet = net.supernet) :
    ¬sep net existing := by
  by_cases hp : net.plen = 0
  · have hsup_eq : net.supernet = net := by unfold Net.supernet; rw [if_pos hp]
    have hq : existing.plen ≠ 0 := by
      intro hq0
      apply hne
      have he : existing.supernet = existing := by unfold Net.supernet; rw [if_pos hq0]
      exact he.symm.trans (hsup.trans hsup_eq)
    have hsub : existing.range ⊆ net.range := by
      have h1 := Net.range_subset_supernet hve
      rwa [hsup, hsup_eq] at h1
    exact (not_sep_of_subset hsub).2
  · by_cases hq : existing.plen = 0
    · have he : existing.supernet = existing := by unfold Net.supernet; rw [if_pos hq]
      have hex : existing = net.supernet := by rw [← he, hsup]
      have hsub : net.range ⊆ existing.range := by
        have h1 := Net.range_subset_supernet hvn
        rwa [← hex] at h1
      exact (not_sep_of_subset hsub).1
    · have hpl : existing.plen = net.plen := by
        have h1 := Net.supernet_plen hp
        have h2 := Net.supernet_plen hq
        rw [hsup] at h2
        omega
      have hb := sibling_bases hve hvn hne hq hp hpl hsup
      have hsize : existing.size = net.size := by unfold Net.size; rw [hpl]
      have h1 := net.size_pos
      have h2 := existing.size_pos
      unfold sep
      omega

/-! ### The merge loop: unfolding and invariants -/

theorem mergeLoop_nil (sb : List Net) : mergeLoop [] sb = sb := by
  rw [mergeLoop]

theorem mergeLoop_cons_none {net : Net} {sb : List Net} (rest : List Net)
    (hf : sb.find? (fun v => v.supernet == net.supernet) = none) :
    mergeLoop (net :: rest) sb = mergeLoop rest (sb ++ [net]) := by
  rw [mergeLoop.eq_def]
  dsimp only
  split
  · rfl
  · next e heq => rw [hf] at heq; cases heq

theorem mergeLoop_cons_eq {net : Net} {sb : List Net} (rest : List Net)
    (hf : sb.find? (fun v => v.supernet == net.supernet) = some net) :
    mergeLoop (net :: rest) sb = mergeLoop rest sb := by
  rw [mergeLoop.eq_def]
  dsimp only
  split
  · next heq => rw [hf] at heq; cases heq
  · next e heq =>
    rw [hf] at heq
    cases heq
    rw [if_pos rfl]

theorem mergeLoop_cons_merge {net existing : Net} {sb : List Net} (rest : List Net)
    (hf : sb.find? (fun v => v.supernet == net.supernet) = some existing)
    (hne : existing ≠ net) :
    mergeLoop (net :: rest) sb =
      mergeLoop (net.supernet :: rest)
        (sb.eraseP (fun v => v.supernet == net.supernet)) := by
  rw [mergeLoop.eq_def]
  dsimp only
  split
  · next heq => rw [hf] at heq; cases heq
  · next e heq =>
    rw [hf] at heq
    cases heq
    rw [if_neg hne]

theorem find?_mem_pred {α : Type} {p : α → Bool} {l : List α} {a : α}
    (h : l.find? p = some a) : a ∈ l ∧ p a = true :=
  ⟨List.mem_of_find?_eq_some h, List.find?_some h⟩

/-- Union preservation across the merge phase. -/
theorem mergeLoop_cover : ∀ tm sb : List Net, (∀ n ∈ tm ++ sb, n.Valid) →
    cover (mergeLoop tm sb) = cover tm ∪ cover sb := by
  intro tm sb
  induction tm, sb using mergeLoop.induct with
  | case1 sb =>
    intro _
    rw [mergeLoop_nil, cover_nil]
    exact (Set.empty_union _).symm
  | case2 net rest sb hf ih =>
    intro hv
    rw [mergeLoop_cons_none rest hf, ih]
    · rw [cover_append, cover_cons, cover_cons, cover_nil]
      ext a
      simp only [Set.mem_union, Set.mem_empty_iff_false, or_false]
      tauto
    · intro n hn
      apply hv
      simp only [List.mem_append, List.mem_cons] at hn ⊢
      tauto
  | case3 rest sb existing hf ih =>
    intro hv
    rw [mergeLoop_cons_eq rest hf, ih]
    · have hmem : existing ∈ sb := (find?_mem_pred hf).1
      have hsub : existing.range ⊆ cover sb := range_subset_cover hmem
      rw [cover_cons]
      ext a
      simp only [Set.mem_union]
      constructor
      · tauto
      · rintro (h | h)
        · rcases h with h | h
          · exact Or.inr (hsub h)
          · exact Or.inl h
        · exact Or.inr h
    · intro n hn
      apply hv
      simp only [List.mem_append, List.mem_cons] at hn ⊢
      tauto
  | case4 net rest sb existing hf hne ih =>
    intro hv
    have hvn : net.Valid := hv net (by simp)
    have hmem := find?_mem_pred hf
    have hve : existing.Valid := hv existing (by simp [hmem.1])
    have hsup : existing.supernet = net.supernet := by
      have := hmem.2
      simpa using this
    have hperm : sb.Perm (existing :: sb.eraseP (fun v => v.supernet == net.supernet)) :=
      perm_cons_eraseP hf
    rw [mergeLoop_cons_merge rest hf hne, ih]
    · have hcov_sb : cover sb = existing.range ∪
          cover (sb.eraseP (fun v => v.supernet == net.supernet)) := by
        rw [cover_perm hperm, cover_cons]
      have hmu := merge_union hvn hve hne hsup
      rw [cover_cons, cover_cons, hcov_sb, ← hmu]
      ext a
      simp only [Set.mem_union]
      tauto
    · intro n hn
      simp only [List.mem_append, List.mem_cons] at hn
      rcases hn with (rfl | hn) | hn
      · exact Net.supernet_valid hvn
      · exact hv n (by simp [hn])
      · exact hv n (by
          simp only [List.mem_append, List.mem_cons]
          exact Or.inr ((List.eraseP_sublist sb).mem hn))

/-- Entry-count bound across the merge phase. -/
theorem mergeLoop_length : ∀ tm sb : List Net,
    (mergeLoop tm sb).length ≤ tm.length + sb.length := by
  intro tm sb
  induction tm, sb using mergeLoop.induct with
  | case1 sb => rw [mergeLoop_nil]; simp
  | case2 net rest sb hf ih =>
    rw [mergeLoop_cons_none rest hf]
    simp only [List.length_append, List.length_cons, List.length_nil] at ih ⊢
    omega
  | case3 rest sb existing hf ih =>
    rw [mergeLoop_cons_eq rest hf]
    simp only [List.length_cons] at ih ⊢
    omega
  | case4 net rest sb existing hf hne ih =>
    rw [mergeLoop_cons_merge rest hf hne]
    have hperm := perm_cons_eraseP hf
    have hlen := hperm.length_eq
    simp only [List.length_cons] at ih hlen ⊢
    omega

/-- Every network produced by the merge phase contains some network of the
ambient key set `K` (used to show the summarizer never skips a collapsed
network). -/
theorem mergeLoop_member_contains (K : List Net) : ∀ tm sb : List Net,
    (∀ n ∈ tm, n.Valid) →
    (∀ v ∈ tm, ∃ k ∈ K, k.subnetOf v = true) →
    (∀ v ∈ sb, ∃ k ∈ K, k.subnetOf v = true) →
    ∀ v ∈ mergeLoop tm sb, ∃ k ∈ K, k.subnetOf v = true := by
  intro tm sb
  induction tm, sb using mergeLoop.induct with
  | case1 sb =>
    intro _ _ hsb v hv
    rw [mergeLoop_nil] at hv
    exact hsb v hv
  | case2 net rest sb hf ih =>
    intro hval htm hsb v hv
    rw [mergeLoop_cons_none rest hf] at hv
    refine ih (fun n hn => hval n (by simp [hn])) (fun w hw => htm w (by simp [hw]))
      (fun w hw => ?_) v hv
    simp only [List.mem_append, List.mem_singleton] at hw
    rcases hw with hw | rfl
    · exact hsb w hw
    · exact htm w (by simp)
  | case3 rest sb existing hf ih =>
    intro hval htm hsb v hv
    rw [mergeLoop_cons_eq rest hf] at hv
    exact ih (fun n hn => hval n (by simp [hn])) (fun w hw => htm w (by simp [hw])) hsb v hv
  | case4 net rest sb existing hf hne ih =>
    intro hval htm hsb v hv
    rw [mergeLoop_cons_merge rest hf hne] at hv
    have hvn : net.Valid := hval net (by simp)
    refine ih (fun n hn => ?_) (fun w hw => ?_) (fun w hw => ?_) v hv
    · simp only [List.mem_cons] at hn
      rcases hn with rfl | hn
      · exact Net.supernet_valid hvn
      · exact hval n (by simp [hn])
    · simp only [List.mem_cons] at hw
      rcases hw with rfl | hw
      · obtain ⟨k, hk, hks⟩ := htm net (by simp)
        exact ⟨k, hk, Net.subnetOf_trans hks (Net.subnetOf_supernet hvn)⟩
      · exact htm w (by simp [hw])
    · exact hsb w ((List.eraseP_sublist sb).mem hw)

/-- On pairwise strictly separated inputs the merge phase performs no merge:
the result is a permutation of the input. -/
theorem mergeLoop_sep_perm : ∀ tm sb : List Net, (∀ n ∈ tm ++ sb, n.Valid) →
    List.Pairwise sep (tm ++ sb) → (mergeLoop tm sb).Perm (tm ++ sb) := by
  intro tm sb
  induction tm, sb using mergeLoop.induct with
  | case1 sb =>
    intro _ _
    rw [mergeLoop_nil]
    simp
  | case2 net rest sb hf ih =>
    intro hv hsep
    have hp : (rest ++ (sb ++ [net])).Perm ((net :: rest) ++ sb) := by
      rw [← List.append_assoc]
      simpa using List.perm_append_singleton net (rest ++ sb)
    rw [mergeLoop_cons_none rest hf]
    refine (ih (fun n hn => hv n (hp.mem_iff.mp hn))
      ((hp.pairwise_iff (fun h => sep_symm h)).mpr hsep)).trans hp
  | case3 rest sb existing hf ih =>
    intro hv hsep
    exfalso
    have hmem : existing ∈ rest ++ sb := by
      simp only [List.mem_append]
      exact Or.inr (find?_mem_pred hf).1
    have hcons : List.Pairwise sep (existing :: (rest ++ sb)) := by simpa using hsep
    have hself : sep existing existing := (List.pairwise_cons.mp hcons).1 existing hmem
    have := existing.size_pos
    unfold sep at hself
    omega
  | case4 net rest sb existing hf hne ih =>
    intro hv hsep
    exfalso
    have hmemp := find?_mem_pred hf
    have hvn : net.Valid := hv net (by simp)
    have hve : existing.Valid := hv existing (by simp [hmemp.1])
    have hsup : existing.supernet = net.supernet := by simpa using hmemp.2
    have hmem : existing ∈ rest ++ sb := by
      simp only [List.mem_append]
      exact Or.inr hmemp.1
    have hcons : List.Pairwise sep (net :: (rest ++ sb)) := by simpa using hsep
    exact colliding_not_sep hvn hve hne hsup ((List.pairwise_cons.mp hcons).1 existing hmem)

/-! ### The final sorted sweep -/

theorem dedupPass_subset : ∀ (l : List Net) (prev : Option Net),
    ∀ v ∈ dedupPass l prev, v ∈ l := by
  intro l
  induction l with
  | nil => intro prev v hv; cases prev <;> exact absurd hv (by simp [dedupPass])
  | cons x rest ih =>
    intro prev v hv
    cases prev with
    | none =>
      simp only [dedupPass, List.mem_cons] at hv
      rcases hv with rfl | hv
      · simp
      · simp [ih _ v hv]
    | some p =>
      simp only [dedupPass] at hv
      split at hv
      · simp [ih _ v hv]
      · simp only [List.mem_cons] at hv
        rcases hv with rfl | hv
        · simp
        · simp [ih _ v hv]

theorem dedupPass_length : ∀ (l : List Net) (prev : Option Net),
    (dedupPass l prev).length ≤ l.length := by
  intro l
  induction l with
  | nil => intro prev; cases prev <;> simp [dedupPass]
  | cons x rest ih =>
    intro prev
    cases prev with
    | none =>
      simp only [dedupPass, List.length_cons]
      have := ih (some x)
      omega
    | some p =>
      simp only [dedupPass]
      split
      · have := ih (some p)
        simp only [List.length_cons]
        omega
      · have := ih (some x)
        simp only [List.length_cons]
        omega

theorem netLE_base {p x : Net} (h : netLE p x) : p.base ≤ x.base := by
  unfold netLE at h
  omega

theorem dedupPass_cover_some : ∀ (l : List Net) (p : Net), List.Pairwise netLE l →
    (∀ x ∈ l, p.base ≤ x.base) →
    cover (dedupPass l (some p)) ∪ p.range = cover l ∪ p.range := by
  intro l
  induction l with
  | nil => intro p _ _; rfl
  | cons x rest ih =>
    intro p hpair hbase
    have hpx : p.base ≤ x.base := hbase x (by simp)
    by_cases hskip : x.bcast ≤ p.bcast
    · rw [show dedupPass (x :: rest) (some p) = dedupPass rest (some p) from by
        simp [dedupPass, hskip]]
      have hsub : x.range ⊆ p.range := by
        have hx := x.size_pos
        have hp := p.size_pos
        unfold Net.bcast at hskip
        exact Set.Ico_subset_Ico hpx (by omega)
      rw [ih p hpair.of_cons (fun y hy => hbase y (by simp [hy])), cover_cons]
      ext a
      simp only [Set.mem_union]
      constructor
      · tauto
      · rintro ((h | h) | h)
        · exact Or.inr (hsub h)
        · tauto
        · tauto
    · rw [show dedupPass (x :: rest) (some p) = x :: dedupPass rest (some x) from by
        simp [dedupPass, hskip]]
      have hx : ∀ y ∈ rest, x.base ≤ y.base := fun y hy =>
        netLE_base ((List.pairwise_cons.mp hpair).1 y hy)
      have hmain := ih x hpair.of_cons hx
      rw [cover_cons, cover_cons]
      ext a
      simp only [Set.mem_union]
      have hiff := Set.ext_iff.mp hmain a
      simp only [Set.mem_union] at hiff
      tauto

theorem dedupPass_cover_none (l : List Net) (hpair : List.Pairwise netLE l) :
    cover (dedupPass l none) = cover l := by
  cases l with
  | nil => rfl
  | cons x rest =>
    rw [show dedupPass (x :: rest) none = x :: dedupPass rest (some x) from rfl]
    have hx : ∀ y ∈ rest, x.base ≤ y.base := fun y hy =>
      netLE_base ((List.pairwise_cons.mp hpair).1 y hy)
    have hmain := dedupPass_cover_some rest x hpair.of_cons hx
    rw [cover_cons, cover_cons]
    ext a
    simp only [Set.mem_union]
    have hiff := Set.ext_iff.mp hmain a
    simp only [Set.mem_union] at hiff
    tauto

theorem dedupPass_sep_id : ∀ (l : List Net) (prev : Option Net),
    List.Pairwise netLE l → List.Pairwise sep l →
    (∀ p, prev = some p → ∀ x ∈ l, netLE p x ∧ sep p x) →
    dedupPass l prev = l := by
  intro l
  induction l with
  | nil => intro prev _ _ _; cases prev <;> rfl
  | cons x rest ih =>
    intro prev hle hsep hprev
    have hrest : ∀ p, some x = some p → ∀ y ∈ rest, netLE p y ∧ sep p y := by
      rintro p hp y hy
      cases hp
      exact ⟨(List.pairwise_cons.mp hle).1 y hy, (List.pairwise_cons.mp hsep).1 y hy⟩
    cases prev with
    | none =>
      rw [show dedupPass (x :: rest) none = x :: dedupPass rest (some x) from rfl]
      rw [ih (some x) hle.of_cons hsep.of_cons hrest]
    | some p =>
      obtain ⟨hlep, hsepp⟩ := hprev p rfl x (by simp)
      have hnoskip : ¬x.bcast ≤ p.bcast := by
        have hx := x.size_pos
        have hp := p.size_pos
        have hb := netLE_base hlep
        unfold Net.bcast
        unfold sep at hsepp
        omega
      rw [show dedupPass (x :: rest) (some p) = x :: dedupPass rest (some x) from by
        simp [dedupPass, hnoskip]]
      rw [ih (some x) hle.of_cons hsep.of_cons hrest]

/-! ### Trailing zeros, bit length, `summarize_address_range` -/

theorem tz_dvd : ∀ n : Nat, 2 ^ tz n ∣ n := by
  intro n
  induction n using tz.induct with
  | case1 => exact dvd_zero _
  | case2 x hx hodd =>
    rw [show tz x = 0 from by rw [tz]; simp [hx, hodd]]
    simp
  | case3 x hx heven ih =>
    rw [show tz x = tz (x / 2) + 1 from by conv_lhs => rw [tz]; simp [hx, heven]]
    obtain ⟨k, hk⟩ := ih
    refine ⟨k, ?_⟩
    rw [pow_succ]
    calc x = 2 * (x / 2) := by omega
      _ = 2 * (2 ^ tz (x / 2) * k) := by rw [← hk]
      _ = 2 ^ tz (x / 2) * 2 * k := by ring

theorem crz_le (n : Nat) : countRighthandZeroBits n 32 ≤ 32 := by
  unfold countRighthandZeroBits
  split
  · exact le_refl _
  · exact min_le_left _ _

theorem crz_dvd (n : Nat) : 2 ^ countRighthandZeroBits n 32 ∣ n := by
  unfold countRighthandZeroBits
  split
  · next h => rw [h]; exact dvd_zero _
  · exact dvd_trans (pow_dvd_pow 2 (min_le_right _ _)) (tz_dvd n)

theorem two_pow_bitLen_pred_le {m : Nat} (h : m ≠ 0) : 2 ^ (bitLen m - 1) ≤ m := by
  unfold bitLen
  rw [if_neg h]
  simp only [Nat.add_sub_cancel]
  rw [Nat.log2_eq_log_two]
  exact Nat.pow_log_le_self 2 h

theorem sumRange_facts (first last : Nat) (h : first ≤ last) :
    min (countRighthandZeroBits first 32) (bitLen (last - first + 1) - 1) ≤ 32 ∧
    2 ^ min (countRighthandZeroBits first 32) (bitLen (last - first + 1) - 1) ∣ first ∧
    first + 2 ^ min (countRighthandZeroBits first 32) (bitLen (last - first + 1) - 1) ≤
      last + 1 := by
  refine ⟨le_trans (min_le_left _ _) (crz_le first),
    dvd_trans (pow_dvd_pow 2 (min_le_left _ _)) (crz_dvd first), ?_⟩
  have h1 : (2 : Nat) ^ min (countRighthandZeroBits first 32) (bitLen (last - first + 1) - 1) ≤
      2 ^ (bitLen (last - first + 1) - 1) :=
    Nat.pow_le_pow_right (by omega) (min_le_right _ _)
  have h2 : (2 : Nat) ^ (bitLen (last - first + 1) - 1) ≤ last - first + 1 :=
    two_pow_bitLen_pred_le (by omega)
  omega

theorem sumRange_step (first last : Nat) (h : first ≤ last) :
    sumRange first last =
      ⟨first, 32 - min (countRighthandZeroBits first 32) (bitLen (last - first + 1) - 1)⟩ ::
        sumRange
          (first + 2 ^ min (countRighthandZeroBits first 32) (bitLen (last - first + 1) - 1))
          last := by
  conv_lhs => rw [sumRange]
  rw [if_pos h]

theorem sumRange_empty (first last : Nat) (h : ¬first ≤ last) : sumRange first last = [] := by
  conv_lhs => rw [sumRange]
  rw [if_neg h]

theorem sumRange_spec : ∀ first last : Nat, last < 2 ^ 32 →
    (∀ v ∈ sumRange first last, v.Valid ∧ first ≤ v.base ∧ v.base ≤ last) ∧
    (first ≤ last + 1 → cover (sumRange first last) = Set.Ico first (last + 1)) ∧
    (sumRange first last).length ≤ last + 1 - first := by
  intro first last
  induction first, last using sumRange.induct with
  | case2 first last h =>
    intro hlt
    rw [sumRange_empty first last h]
    refine ⟨by simp, ?_, by simp⟩
    intro hle
    rw [cover_nil]
    exact (Set.Ico_eq_empty (by omega)).symm
  | case1 first last h nbits ih =>
    intro hlt
    have hnb : nbits = min (countRighthandZeroBits first 32) (bitLen (last - first + 1) - 1) :=
      rfl
    have hfacts := sumRange_facts first last h
    rw [← hnb] at hfacts
    obtain ⟨hn32, hndvd, hnle⟩ := hfacts
    obtain ⟨ihm, ihc, ihl⟩ := ih hlt
    have hstep := sumRange_step first last h
    rw [← hnb] at hstep
    rw [hstep]
    have hsz : (Net.mk first (32 - nbits)).size = 2 ^ nbits := by
      show (2 : Nat) ^ (32 - (32 - nbits)) = _
      rw [show 32 - (32 - nbits) = nbits by omega]
    have hpos : 0 < (2 : Nat) ^ nbits := Nat.pos_pow_of_pos _ (by omega)
    refine ⟨?_, ?_, ?_⟩
    · intro v hv
      rcases List.mem_cons.mp hv with rfl | hv
      · refine ⟨⟨show 32 - nbits ≤ 32 by omega, ?_, ?_⟩, le_refl _, h⟩
        · rw [hsz]; exact hndvd
        · show first + _ ≤ 2 ^ 32
          rw [hsz]; omega
      · obtain ⟨hval, hb1, hb2⟩ := ihm v hv
        exact ⟨hval, by omega, hb2⟩
    · intro _
      rw [cover_cons, ihc (by omega)]
      show Set.Ico first (first + _) ∪ _ = _
      rw [hsz]
      exact Set.Ico_union_Ico_eq_Ico (by omega) (by omega)
    · simp only [List.length_cons]
      generalize hP : (2 : Nat) ^ nbits = P at ihl hnle hpos ⊢
      omega

/-! ### Runs of consecutive addresses (`_find_address_range`) -/

/-- Addresses covered by a list of `(first, last)` ranges. -/
def pairsCover (rs : List (Nat × Nat)) : Set Nat := {a | ∃ r ∈ rs, r.1 ≤ a ∧ a ≤ r.2}

theorem pairsCover_cons (r : Nat × Nat) (rs : List (Nat × Nat)) :
    pairsCover (r :: rs) = Set.Icc r.1 r.2 ∪ pairsCover rs := by
  ext a
  simp only [pairsCover, Set.mem_setOf_eq, List.mem_cons, Set.mem_union, Set.mem_Icc]
  constructor
  · rintro ⟨q, rfl | hq, ha⟩
    · exact Or.inl ha
    · exact Or.inr ⟨q, hq, ha⟩
  · rintro (h | ⟨q, hq, ha⟩)
    · exact ⟨r, Or.inl rfl, h⟩
    · exact ⟨q, Or.inr hq, ha⟩

theorem findRangesGo_spec : ∀ (rest : List Nat) (first last : Nat),
    first ≤ last → List.Pairwise (· < ·) (last :: rest) →
    (∀ r ∈ findRangesGo first last rest, r.1 ≤ r.2 ∧ (r.2 = last ∨ r.2 ∈ rest)) ∧
    pairsCover (findRangesGo first last rest) = Set.Icc first last ∪ {a | a ∈ rest} ∧
    ((findRangesGo first last rest).map (fun r => r.2 + 1 - r.1)).sum =
      (last + 1 - first) + rest.length ∧
    (∀ P : Nat → Prop, (∀ a, first ≤ a → a ≤ last → P a) → (∀ x ∈ rest, P x) →
      ∀ r ∈ findRangesGo first last rest, ∀ a, r.1 ≤ a → a ≤ r.2 → P a) := by
  intro rest
  induction rest with
  | nil =>
    intro first last hfl _
    refine ⟨?_, ?_, ?_, ?_⟩
    · intro r hr
      simp only [findRangesGo, List.mem_singleton] at hr
      subst hr
      exact ⟨hfl, Or.inl rfl⟩
    · rw [show findRangesGo first last [] = [(first, last)] from rfl, pairsCover_cons]
      ext a
      simp [pairsCover]
    · simp [findRangesGo]
    · intro P h1 _ r hr
      simp only [findRangesGo, List.mem_singleton] at hr
      subst hr
      exact fun a ha1 ha2 => h1 a ha1 ha2
  | cons ip rest ih =>
    intro first last hfl hpair
    have hlast_ip : last < ip := (List.pairwise_cons.mp hpair).1 ip (by simp)
    have hpair' : List.Pairwise (· < ·) (ip :: rest) := hpair.of_cons
    by_cases hip : ip ≠ last + 1
    · rw [show findRangesGo first last (ip :: rest) =
        (first, last) :: findRangesGo ip ip rest from by simp [findRangesGo, hip]]
      obtain ⟨iha, ihb, ihc, ihd⟩ := ih ip ip (le_refl ip) hpair'
      refine ⟨?_, ?_, ?_, ?_⟩
      · intro r hr
        rcases List.mem_cons.mp hr with rfl | hr
        · exact ⟨hfl, Or.inl rfl⟩
        · obtain ⟨h1, h2⟩ := iha r hr
          refine ⟨h1, Or.inr ?_⟩
          rcases h2 with rfl | h2
          · simp
          · simp [h2]
      · rw [pairsCover_cons, ihb]
        ext a
        simp only [Set.mem_union, Set.mem_Icc, Set.mem_setOf_eq, List.mem_cons]
        constructor
        · rintro (h | (h | h))
          · exact Or.inl h
          · exact Or.inr (Or.inl (by omega))
          · exact Or.inr (Or.inr h)
        · rintro (h | (h | h))
          · exact Or.inl h
          · exact Or.inr (Or.inl (by omega))
          · exact Or.inr (Or.inr h)
      · simp only [List.map_cons, List.sum_cons, ihc, List.length_cons]
        omega
      · intro P h1 h2 r hr
        rcases List.mem_cons.mp hr with rfl | hr
        · exact fun a ha1 ha2 => h1 a ha1 ha2
        · refine ihd P (fun a ha1 ha2 => ?_) (fun x hx => h2 x (by simp [hx])) r hr
          have : a = ip := by omega
          subst this
          exact h2 a (by simp)
    · have hip' : ip = last + 1 := by omega
      rw [show findRangesGo first last (ip :: rest) = findRangesGo first ip rest from by
        simp [findRangesGo, hip]]
      obtain ⟨iha, ihb, ihc, ihd⟩ := ih first ip (by omega) hpair'
      refine ⟨?_, ?_, ?_, ?_⟩
      · intro r hr
        obtain ⟨h1, h2⟩ := iha r hr
        refine ⟨h1, Or.inr ?_⟩
        rcases h2 with rfl | h2
        · simp
        · simp [h2]
      · rw [ihb]
        ext a
        simp only [Set.mem_union, Set.mem_Icc, Set.mem_setOf_eq, List.mem_cons]
        constructor
        · rintro (h | h)
          · rcases Nat.lt_or_ge a ip with hlt2 | hge
            · exact Or.inl (by omega)
            · exact Or.inr (Or.inl (by omega))
          · exact Or.inr (Or.inr h)
        · rintro (h | (h | h))
          · exact Or.inl (by omega)
          · exact Or.inl (by omega)
          · exact Or.inr h
      · rw [ihc]
        simp only [List.length_cons]
        omega
      · intro P h1 h2 r hr
        refine ihd P (fun a ha1 ha2 => ?_) (fun x hx => h2 x (by simp [hx])) r hr
        rcases Nat.lt_or_ge a ip with hlt2 | hge
        · exact h1 a ha1 (by omega)
        · have : a = ip := by omega
          subst this
          exact h2 a (by simp)

theorem findRanges_spec (l : List Nat) (hpair : List.Pairwise (· < ·) l) :
    (∀ r ∈ findRanges l, r.1 ≤ r.2 ∧ r.2 ∈ l) ∧
    pairsCover (findRanges l) = {a | a ∈ l} ∧
    ((findRanges l).map (fun r => r.2 + 1 - r.1)).sum = l.length ∧
    (∀ P : Nat → Prop, (∀ x ∈ l, P x) →
      ∀ r ∈ findRanges l, ∀ a, r.1 ≤ a → a ≤ r.2 → P a) := by
  cases l with
  | nil =>
    refine ⟨by simp [findRanges], ?_, by simp [findRanges], by simp [findRanges]⟩
    ext a
    simp [findRanges, pairsCover]
  | cons x rest =>
    obtain ⟨ha, hb, hc, hd⟩ := findRangesGo_spec rest x x (le_refl x) hpair
    rw [show findRanges (x :: rest) = findRangesGo x x rest from rfl]
    refine ⟨?_, ?_, ?_, ?_⟩
    · intro r hr
      obtain ⟨h1, h2⟩ := ha r hr
      refine ⟨h1, ?_⟩
      rcases h2 with rfl | h2
      · simp
      · simp [h2]
    · rw [hb]
      ext a
      simp only [Set.mem_union, Set.mem_Icc, Set.mem_setOf_eq, List.mem_cons]
      constructor
      · rintro (h | h)
        · exact Or.inl (by omega)
        · exact Or.inr h
      · rintro (rfl | h)
        · exact Or.inl ⟨le_refl _, le_refl _⟩
        · exact Or.inr h
    · rw [hc]
      simp only [List.length_cons]
      omega
    · intro P hP r hr
      refine hd P (fun a ha1 ha2 => ?_) (fun y hy => hP y (by simp [hy])) r hr
      have : a = x := by omega
      subst this
      exact hP a (by simp)

/-- The CIDR blocks generated for a list of address ranges
(`addrs.extend(summarize_address_range(first, last))` per range). -/
theorem blocks_spec : ∀ rs : List (Nat × Nat), (∀ r ∈ rs, r.1 ≤ r.2 ∧ r.2 < 2 ^ 32) →
    (∀ v ∈ ((rs.map (fun r => sumRange r.1 r.2)).flatten : List Net),
      v.Valid ∧ ∃ r ∈ rs, r.1 ≤ v.base ∧ v.base ≤ r.2) ∧
    cover ((rs.map (fun r => sumRange r.1 r.2)).flatten) = pairsCover rs ∧
    ((rs.map (fun r => sumRange r.1 r.2)).flatten).length ≤
      ((rs.map (fun r => r.2 + 1 - r.1)).sum) := by
  intro rs
  induction rs with
  | nil =>
    intro _
    refine ⟨by simp, ?_, by simp⟩
    rw [show ((([] : List (Nat × Nat)).map (fun r => sumRange r.1 r.2)).flatten) = [] from rfl,
      cover_nil]
    ext a
    simp [pairsCover]
  | cons r rs ih =>
    intro hr
    obtain ⟨hr1, hr2⟩ := hr r (by simp)
    obtain ⟨iha, ihb, ihc⟩ := ih (fun q hq => hr q (by simp [hq]))
    obtain ⟨sa, sb, sc⟩ := sumRange_spec r.1 r.2 hr2
    have hflat : ((r :: rs).map (fun q => sumRange q.1 q.2)).flatten =
        sumRange r.1 r.2 ++ (rs.map (fun q => sumRange q.1 q.2)).flatten := by
      simp
    refine ⟨?_, ?_, ?_⟩
    · intro v hv
      rw [hflat, List.mem_append] at hv
      rcases hv with hv | hv
      · obtain ⟨h1, h2, h3⟩ := sa v hv
        exact ⟨h1, r, by simp, h2, h3⟩
      · obtain ⟨h1, q, hq, h2⟩ := iha v hv
        exact ⟨h1, q, by simp [hq], h2⟩
    · rw [hflat, cover_append, ihb, pairsCover_cons, sb (by omega)]
      have : Set.Ico r.1 (r.2 + 1) = Set.Icc r.1 r.2 := by
        ext a
        simp only [Set.mem_Ico, Set.mem_Icc]
        omega
      rw [this]
    · rw [hflat, List.length_append]
      simp only [List.map_cons, List.sum_cons]
      omega

/-! ### The `/32` split at the head of `collapse_addresses` -/

theorem splitIpsNets_spec : ∀ l : List Net,
    (∀ x ∈ (splitIpsNets l).1, Net.mk x 32 ∈ l) ∧
    (∀ n ∈ (splitIpsNets l).2, n ∈ l) ∧
    (splitIpsNets l).1.length + (splitIpsNets l).2.length = l.length ∧
    cover l = {a | a ∈ (splitIpsNets l).1} ∪ cover (splitIpsNets l).2 := by
  intro l
  induction l with
  | nil =>
    refine ⟨by simp [splitIpsNets], by simp [splitIpsNets], by simp [splitIpsNets], ?_⟩
    rw [cover_nil]
    ext a
    simp [splitIpsNets, cover_nil]
  | cons n rest ih =>
    obtain ⟨iha, ihb, ihc, ihd⟩ := ih
    by_cases h32 : n.plen = 32
    · have hn : n = Net.mk n.base 32 := by cases n; simp_all
      have hsplit : splitIpsNets (n :: rest) =
          (n.base :: (splitIpsNets rest).1, (splitIpsNets rest).2) := by
        simp [splitIpsNets, h32]
      refine ⟨?_, ?_, ?_, ?_⟩
      · intro x hx
        rw [hsplit] at hx
        rcases List.mem_cons.mp hx with rfl | hx
        · rw [← hn]
          simp
        · simp [iha x hx]
      · intro m hm
        rw [hsplit] at hm
        simp [ihb m hm]
      · rw [hsplit]
        simp only [List.length_cons]
        omega
      · rw [hsplit, cover_cons, ihd]
        have hrange : n.range = {n.base} := by
          unfold Net.range
          rw [show n.size = 1 from by unfold Net.size; rw [h32]; rfl]
          ext a
          simp only [Set.mem_Ico, Set.mem_singleton_iff]
          omega
        rw [hrange]
        ext a
        simp only [Set.mem_union, Set.mem_singleton_iff, Set.mem_setOf_eq, List.mem_cons]
        tauto
    · have hsplit : splitIpsNets (n :: rest) =
          ((splitIpsNets rest).1, n :: (splitIpsNets rest).2) := by
        simp [splitIpsNets, h32]
      refine ⟨?_, ?_, ?_, ?_⟩
      · intro x hx
        rw [hsplit] at hx
        simp [iha x hx]
      · intro m hm
        rw [hsplit] at hm
        rcases List.mem_cons.mp hm with rfl | hm
        · simp
        · simp [ihb m hm]
      · rw [hsplit]
        simp only [List.length_cons]
        omega
      · rw [hsplit, cover_cons, ihd, cover_cons]
        ext a
        simp only [Set.mem_union]
        tauto

/-- The split is just a stable partition: reassembling gives a permutation
of the input. -/
theorem splitIpsNets_perm : ∀ l : List Net,
    ((splitIpsNets l).1.map (fun x => Net.mk x 32) ++ (splitIpsNets l).2).Perm l := by
  intro l
  induction l with
  | nil => simp [splitIpsNets]
  | cons n rest ih =>
    by_cases h32 : n.plen = 32
    · have hn : n = Net.mk n.base 32 := by cases n; simp_all
      rw [show splitIpsNets (n :: rest) =
        (n.base :: (splitIpsNets rest).1, (splitIpsNets rest).2) from by
          simp [splitIpsNets, h32]]
      simp only [List.map_cons, List.cons_append]
      rw [← hn]
      exact ih.cons n
    · rw [show splitIpsNets (n :: rest) =
        ((splitIpsNets rest).1, n :: (splitIpsNets rest).2) from by
          simp [splitIpsNets, h32]]
      exact (List.perm_middle).trans (ih.cons n)

theorem sumRange_single (x : Nat) : sumRange x x = [Net.mk x 32] := by
  have hb1 : bitLen (x - x + 1) - 1 = 0 := by
    rw [show x - x + 1 = 1 by omega]
    unfold bitLen
    rw [if_neg one_ne_zero, Nat.log2_eq_log_two, Nat.log_one_right]
  rw [sumRange_step x x (le_refl x), hb1]
  simp only [Nat.min_zero, pow_zero, Nat.sub_zero]
  rw [sumRange_empty (x + 1) x (by omega)]

theorem findRangesGo_nonconsec : ∀ (rest : List Nat) (last : Nat),
    List.Pairwise (fun x y => y ≠ x + 1) (last :: rest) →
    findRangesGo last last rest = (last :: rest).map (fun x => (x, x)) := by
  intro rest
  induction rest with
  | nil => intro last _; rfl
  | cons ip rest ih =>
    intro last hnc
    have hne : ip ≠ last + 1 := (List.pairwise_cons.mp hnc).1 ip (by simp)
    rw [show findRangesGo last last (ip :: rest) =
      (last, last) :: findRangesGo ip ip rest from by simp [findRangesGo, hne]]
    rw [ih ip hnc.of_cons]
    simp

theorem flatten_map_single {α : Type} (f : Nat → α) (l : List Nat) :
    ((l.map (fun x => (x, x))).map (fun r => [f r.1])).flatten = l.map f := by
  induction l with
  | nil => rfl
  | cons x rest ih =>
    simp only [List.map_cons, List.flatten_cons, List.singleton_append, ih]

/-! ### `collapse_addresses`: the three soundness facts -/

theorem collapse_pipeline (K : List Net) (hv : ∀ n ∈ K, n.Valid) :
    cover (collapse K) = cover K ∧
    (collapse K).length ≤ K.length ∧
    (∀ v ∈ collapse K, ∃ k ∈ K, k.subnetOf v = true) := by
  set ips := (splitIpsNets K).1 with hips
  set nets := (splitIpsNets K).2 with hnets
  set ipsSorted := List.insertionSort (· ≤ ·) ips.dedup with hsortedDef
  set rs := findRanges ipsSorted with hrsDef
  set addrs := ((rs.map (fun r => sumRange r.1 r.2)).flatten : List Net) with haddrsDef
  set L := (addrs ++ nets).reverse with hLDef
  set M := mergeLoop L [] with hMDef
  set S := List.insertionSort netLE M with hSDef
  have hcollapse : collapse K = dedupPass S none := rfl
  obtain ⟨hips32, hnetsK, hlen_split, hcovK⟩ := splitIpsNets_spec K
  rw [← hips, ← hnets] at hlen_split hcovK
  rw [← hnets] at hnetsK
  have hips_lt : ∀ x ∈ ips, x < 2 ^ 32 := by
    intro x hx
    obtain ⟨_, _, hb⟩ := hv _ (hips32 x hx)
    have hone : (Net.mk x 32).size = 1 := by
      show (2 : Nat) ^ (32 - 32) = 1
      norm_num
    have hbase : (Net.mk x 32).base = x := rfl
    omega
  have hnodupS : ipsSorted.Nodup :=
    ((List.perm_insertionSort _ _).nodup_iff).mpr (List.nodup_dedup _)
  have hsorted_le : List.Sorted (· ≤ ·) ipsSorted := List.sorted_insertionSort _ _
  have hsorted_lt : List.Pairwise (· < ·) ipsSorted := hsorted_le.lt_of_le hnodupS
  have hmemS : ∀ a, a ∈ ipsSorted ↔ a ∈ ips := fun a => by
    rw [hsortedDef, List.mem_insertionSort, List.mem_dedup]
  have hlenS : ipsSorted.length ≤ ips.length := by
    rw [hsortedDef, (List.perm_insertionSort _ _).length_eq]
    exact (List.dedup_sublist ips).length_le
  obtain ⟨hra, hrb, hrc, hrd⟩ := findRanges_spec ipsSorted hsorted_lt
  have hrs_bound : ∀ r ∈ rs, r.1 ≤ r.2 ∧ r.2 < 2 ^ 32 := fun r hr =>
    ⟨(hra r hr).1, hips_lt _ ((hmemS _).mp (hra r hr).2)⟩
  obtain ⟨hba, hbb, hbc⟩ := blocks_spec rs hrs_bound
  have haddrs_base : ∀ v ∈ addrs, v.base ∈ ipsSorted := by
    intro v hv'
    obtain ⟨_, r, hr, h1, h2⟩ := hba v hv'
    exact hrd (· ∈ ipsSorted) (fun x hx => hx) r hr v.base h1 h2
  have hcov_addrs : cover addrs = {a | a ∈ ips} := by
    rw [haddrsDef, hbb, hrb]
    ext a
    simp only [Set.mem_setOf_eq]
    exact hmemS a
  have hlen_addrs : addrs.length ≤ ips.length :=
    calc addrs.length ≤ (rs.map (fun r => r.2 + 1 - r.1)).sum := hbc
      _ = ipsSorted.length := hrc
      _ ≤ ips.length := hlenS
  have hmemL : ∀ n, n ∈ L ↔ (n ∈ addrs ∨ n ∈ nets) := fun n => by
    rw [hLDef, List.mem_reverse, List.mem_append]
  have hvL : ∀ n ∈ L, n.Valid := by
    intro n hn
    rcases (hmemL n).mp hn with hn | hn
    · exact (hba n hn).1
    · exact hv n (hnetsK n hn)
  have hGL : ∀ v ∈ L, ∃ k ∈ K, k.subnetOf v = true := by
    intro v hvv
    rcases (hmemL v).mp hvv with hvv | hvv
    · refine ⟨Net.mk v.base 32, hips32 _ ((hmemS _).mp (haddrs_base v hvv)), ?_⟩
      rw [Net.subnetOf_iff]
      have hone : (Net.mk v.base 32).size = 1 := by
        show (2 : Nat) ^ (32 - 32) = 1
        norm_num
      have := v.size_pos
      constructor
      · exact le_refl _
      · show v.base + (Net.mk v.base 32).size ≤ v.base + v.size
        omega
    · refine ⟨v, hnetsK v hvv, ?_⟩
      rw [Net.subnetOf_iff]
      omega
  have hcovL : cover L = cover K := by
    rw [hLDef, cover_perm (List.reverse_perm _), cover_append, hcov_addrs, ← hcovK]
  have hvL' : ∀ n ∈ L ++ [], n.Valid := by
    intro n hn
    rw [List.append_nil] at hn
    exact hvL n hn
  have hcovM : cover M = cover K := by
    rw [hMDef, mergeLoop_cover L [] hvL', cover_nil, Set.union_empty, hcovL]
  have hlenM : M.length ≤ K.length := by
    have h1 := mergeLoop_length L []
    have h2 : L.length = addrs.length + nets.length := by
      rw [hLDef, List.length_reverse, List.length_append]
    rw [← hMDef] at h1
    simp only [List.length_nil] at h1
    omega
  have hGM : ∀ v ∈ M, ∃ k ∈ K, k.subnetOf v = true := by
    rw [hMDef]
    exact mergeLoop_member_contains K L [] hvL hGL (by simp)
  have hpermS : S.Perm M := List.perm_insertionSort _ _
  have hsortS : List.Pairwise netLE S := List.sorted_insertionSort _ _
  refine ⟨?_, ?_, ?_⟩
  · rw [hcollapse, dedupPass_cover_none S hsortS, cover_perm hpermS, hcovM]
  · rw [hcollapse]
    calc (dedupPass S none).length ≤ S.length := dedupPass_length S none
      _ = M.length := hpermS.length_eq
      _ ≤ K.length := hlenM
  · intro v hvv
    rw [hcollapse] at hvv
    exact hGM v (hpermS.mem_iff.mp (dedupPass_subset S none v hvv))

/-- On distinct, pairwise strictly separated networks, `collapse_addresses`
is the identity up to ordering. -/
theorem collapse_sep_perm (K : List Net) (hv : ∀ n ∈ K, n.Valid)
    (hnd : K.Nodup) (hsep : List.Pairwise sep K) : (collapse K).Perm K := by
  set ips := (splitIpsNets K).1 with hips
  set nets := (splitIpsNets K).2 with hnets
  set ipsSorted := List.insertionSort (· ≤ ·) ips.dedup with hsortedDef
  set rs := findRanges ipsSorted with hrsDef
  set addrs := ((rs.map (fun r => sumRange r.1 r.2)).flatten : List Net) with haddrsDef
  set L := (addrs ++ nets).reverse with hLDef
  set M := mergeLoop L [] with hMDef
  set S := List.insertionSort netLE M with hSDef
  have hcollapse : collapse K = dedupPass S none := rfl
  obtain ⟨hips32, _, _, _⟩ := splitIpsNets_spec K
  have hsplitPerm : (ips.map (fun x => Net.mk x 32) ++ nets).Perm K := splitIpsNets_perm K
  have hnd' : (ips.map (fun x => Net.mk x 32) ++ nets).Nodup := hsplitPerm.nodup_iff.mpr hnd
  have hndips : ips.Nodup := ((List.nodup_append.mp hnd').1).of_map
  have hdedup : ips.dedup = ips := List.dedup_eq_self.mpr hndips
  have hpermIS : ipsSorted.Perm ips := by
    rw [hsortedDef, hdedup]
    exact List.perm_insertionSort _ _
  have hnodupS : ipsSorted.Nodup := hpermIS.nodup_iff.mpr hndips
  have hsorted_le : List.Sorted (· ≤ ·) ipsSorted := List.sorted_insertionSort _ _
  have hsorted_lt : List.Pairwise (· < ·) ipsSorted := hsorted_le.lt_of_le hnodupS
  have hmemS : ∀ a, a ∈ ipsSorted ↔ a ∈ ips := fun a => hpermIS.mem_iff
  have hsepK : ∀ a ∈ K, ∀ b ∈ K, a ≠ b → sep a b := fun a ha b hb hab =>
    List.Pairwise.forall sep_symmetric hsep ha hb hab
  have hnonconsec : List.Pairwise (fun x y => y ≠ x + 1) ipsSorted := by
    refine List.Pairwise.imp_of_mem ?_ hsorted_lt
    intro x y hx hy hlt
    have hx' : Net.mk x 32 ∈ K := hips32 x ((hmemS x).mp hx)
    have hy' : Net.mk y 32 ∈ K := hips32 y ((hmemS y).mp hy)
    have hne : Net.mk x 32 ≠ Net.mk y 32 := by
      intro h
      have : x = y := by cases h; rfl
      omega
    have hs := hsepK _ hx' _ hy' hne
    have h1 : (Net.mk x 32).size = 1 := by show (2 : Nat) ^ (32 - 32) = 1; norm_num
    have h2 : (Net.mk y 32).size = 1 := by show (2 : Nat) ^ (32 - 32) = 1; norm_num
    have h3 : (Net.mk x 32).base = x := rfl
    have h4 : (Net.mk y 32).base = y := rfl
    unfold sep at hs
    omega
  have hranges : rs = ipsSorted.map (fun x => (x, x)) := by
    rw [hrsDef]
    cases hIS : ipsSorted with
    | nil => rfl
    | cons a rest =>
      rw [hIS] at hnonconsec
      rw [show findRanges (a :: rest) = findRangesGo a a rest from rfl,
        findRangesGo_nonconsec rest a hnonconsec]
  have haddrsEq : addrs = ipsSorted.map (fun x => Net.mk x 32) := by
    rw [haddrsDef, hranges]
    have hgen : ∀ l : List Nat,
        ((l.map (fun x => (x, x))).map (fun r => sumRange r.1 r.2)).flatten =
          l.map (fun x => Net.mk x 32) := by
      intro l
      induction l with
      | nil => rfl
      | cons x rest ih =>
        simp only [List.map_cons, List.flatten_cons, sumRange_single,
          List.singleton_append, ih]
    exact hgen ipsSorted
  have hLperm : L.Perm K := by
    rw [hLDef, haddrsEq]
    have p1 : ((ipsSorted.map (fun x => Net.mk x 32) ++ nets)).reverse.Perm
        (ipsSorted.map (fun x => Net.mk x 32) ++ nets) := List.reverse_perm _
    have p2 : (ipsSorted.map (fun x => Net.mk x 32)).Perm
        (ips.map (fun x => Net.mk x 32)) := hpermIS.map _
    exact p1.trans ((p2.append (List.Perm.refl nets)).trans hsplitPerm)
  have hvL : ∀ n ∈ L ++ [], n.Valid := by
    intro n hn
    rw [List.append_nil] at hn
    exact hv n (hLperm.mem_iff.mp hn)
  have hsepL : List.Pairwise sep (L ++ []) := by
    rw [List.append_nil]
    exact (hLperm.pairwise_iff (fun h => sep_symm h)).mpr hsep
  have hMperm : M.Perm K := by
    rw [hMDef]
    have h1 := mergeLoop_sep_perm L [] hvL hsepL
    rw [List.append_nil] at h1
    exact h1.trans hLperm
  have hpermS : S.Perm M := List.perm_insertionSort _ _
  have hsortS : List.Pairwise netLE S := List.sorted_insertionSort _ _
  have hsepS : List.Pairwise sep S := ((hpermS.trans hMperm).pairwise_iff
    (fun h => sep_symm h)).mpr hsep
  have hid : dedupPass S none = S := by
    refine dedupPass_sep_id S none hsortS hsepS ?_
    rintro p hp
    cases hp
  rw [hcollapse, hid]
  exact hpermS.trans hMperm

/-! ### `summarize_table`: keys, no-skip, and the C3/C4 facts -/

theorem mem_updIns {α β : Type} [DecidableEq α] :
    ∀ (l : List (α × β)) (k : α) (v : β), ∀ p ∈ updIns l k v, p ∈ l ∨ p = (k, v) := by
  intro l k v
  induction l with
  | nil =>
    intro p hp
    simp only [updIns, List.mem_singleton] at hp
    exact Or.inr hp
  | cons q rest ih =>
    obtain ⟨k', v'⟩ := q
    intro p hp
    simp only [updIns] at hp
    split at hp
    · rcases List.mem_cons.mp hp with rfl | hp
      · exact Or.inr rfl
      · exact Or.inl (by simp [hp])
    · rcases List.mem_cons.mp hp with rfl | hp
      · exact Or.inl (by simp)
      · rcases ih p hp with h | h
        · exact Or.inl (by simp [h])
        · exact Or.inr h

theorem keys_updIns {α β : Type} [DecidableEq α] :
    ∀ (l : List (α × β)) (k : α) (v : β),
    (updIns l k v).map (·.1) =
      if k ∈ l.map (·.1) then l.map (·.1) else l.map (·.1) ++ [k] := by
  intro l k v
  induction l with
  | nil => simp [updIns]
  | cons q rest ih =>
    obtain ⟨k', v'⟩ := q
    simp only [updIns]
    by_cases h : k' = k
    · subst h
      rw [if_pos rfl]
      simp
    · rw [if_neg h]
      simp only [List.map_cons, ih, List.mem_cons]
      by_cases h2 : k ∈ rest.map (·.1)
      · rw [if_pos h2, if_pos (Or.inr h2)]
      · rw [if_neg h2, if_neg (by rintro (h3 | h3); exact h (h3.symm); exact h2 h3)]
        simp

theorem length_updIns_le {α β : Type} [DecidableEq α] :
    ∀ (l : List (α × β)) (k : α) (v : β), (updIns l k v).length ≤ l.length + 1 := by
  intro l k v
  induction l with
  | nil => simp [updIns]
  | cons q rest ih =>
    obtain ⟨k', v'⟩ := q
    simp only [updIns]
    split <;> simp only [List.length_cons] <;> omega

theorem buildRedesObj_invariant :
    ∀ (table : List (String × Entry)) (acc : List (Net × Entry)),
    (∀ p ∈ acc, ∃ s, parseIPv4Net s = some p.1) → ((acc.map (·.1)).Nodup) →
    (∀ p ∈ table.foldl
        (fun acc kv => match parseIPv4Net kv.1 with
          | none => acc
          | some n => updIns acc n kv.2) acc,
      ∃ s, parseIPv4Net s = some p.1) ∧
    ((table.foldl
        (fun acc kv => match parseIPv4Net kv.1 with
          | none => acc
          | some n => updIns acc n kv.2) acc).map (·.1)).Nodup ∧
    (table.foldl
        (fun acc kv => match parseIPv4Net kv.1 with
          | none => acc
          | some n => updIns acc n kv.2) acc).length ≤ acc.length + table.length := by
  intro table
  induction table with
  | nil =>
    intro acc h1 h2
    exact ⟨h1, h2, by simp⟩
  | cons kv rest ih =>
    intro acc h1 h2
    simp only [List.foldl_cons]
    cases hp : parseIPv4Net kv.1 with
    | none =>
      obtain ⟨a, b, c⟩ := ih acc h1 h2
      refine ⟨a, b, ?_⟩
      show (List.foldl
        (fun acc kv => match parseIPv4Net kv.1 with
          | none => acc
          | some n => updIns acc n kv.2) acc rest).length ≤ acc.length + (kv :: rest).length
      simp only [List.length_cons]
      omega
    | some n =>
      have h1' : ∀ p ∈ updIns acc n kv.2, ∃ s, parseIPv4Net s = some p.1 := by
        intro p hpm
        rcases mem_updIns acc n kv.2 p hpm with h | h
        · exact h1 p h
        · exact ⟨kv.1, by rw [h, hp]⟩
      have h2' : ((updIns acc n kv.2).map (·.1)).Nodup := by
        rw [keys_updIns]
        split
        · exact h2
        · next hnot =>
          rw [List.nodup_append]
          exact ⟨h2, List.nodup_singleton n, by simp [List.disjoint_singleton, hnot]⟩
      obtain ⟨a, b, c⟩ := ih (updIns acc n kv.2) h1' h2'
      refine ⟨a, b, ?_⟩
      show (List.foldl
        (fun acc kv => match parseIPv4Net kv.1 with
          | none => acc
          | some n => updIns acc n kv.2) (updIns acc n kv.2) rest).length ≤
        acc.length + (kv :: rest).length
      have := length_updIns_le acc n kv.2
      simp only [List.length_cons]
      omega

theorem buildRedesObj_keys_valid (table : List (String × Entry)) :
    ∀ n ∈ (buildRedesObj table).map (·.1), n.Valid := by
  intro n hn
  obtain ⟨p, hp, rfl⟩ := List.mem_map.mp hn
  obtain ⟨s, hs⟩ := (buildRedesObj_invariant table [] (by simp) (by simp)).1 p hp
  exact parseIPv4Net_valid hs

theorem buildRedesObj_keys_nodup (table : List (String × Entry)) :
    ((buildRedesObj table).map (·.1)).Nodup :=
  (buildRedesObj_invariant table [] (by simp) (by simp)).2.1

theorem buildRedesObj_length (table : List (String × Entry)) :
    (buildRedesObj table).length ≤ table.length := by
  have := (buildRedesObj_invariant table [] (by simp) (by simp)).2.2
  simpa using this

theorem filterMap_fst {β : Type} (f : Net → Option (Net × β)) :
    ∀ l : List Net, (∀ s ∈ l, ∃ p, f s = some (s, p)) → ((l.filterMap f).map (·.1)) = l := by
  intro l
  induction l with
  | nil => intro _; rfl
  | cons s rest ih =>
    intro h
    obtain ⟨p, hp⟩ := h s (by simp)
    rw [List.filterMap_cons, hp, List.map_cons, ih (fun t ht => h t (by simp [ht]))]

/-- The summarizer never skips a collapsed network: each one has at least one
member, so the output keys are exactly the collapsed keys. -/
theorem summarize_nets (table : List (String × Entry)) :
    (summarize_table table).map (·.1) = collapse ((buildRedesObj table).map (·.1)) := by
  have hval := buildRedesObj_keys_valid table
  show ((collapse ((buildRedesObj table).map (·.1))).filterMap
    (fun sum_net =>
      match (buildRedesObj table).filter (fun q => q.1.subnetOf sum_net) with
      | [] => none
      | m :: ms =>
        some (sum_net, Entry.mk ((ms.map (fun q => q.2.cost)).foldl min m.2.cost)
          ((ms.foldl (fun best q => if q.2.cost < best.2.cost then q else best)
            m).2.next_hop)))).map
      (·.1) = collapse ((buildRedesObj table).map (·.1))
  apply filterMap_fst
  intro s hs
  obtain ⟨k, hk, hsub⟩ := (collapse_pipeline _ hval).2.2 s hs
  obtain ⟨q, hmem, hfst⟩ := List.mem_map.mp hk
  have hqf : q ∈ (buildRedesObj table).filter (fun q => q.1.subnetOf s) :=
    List.mem_filter.mpr ⟨hmem, by rw [hfst]; exact hsub⟩
  cases hfilter : (buildRedesObj table).filter (fun q => q.1.subnetOf s) with
  | nil => rw [hfilter] at hqf; cases hqf
  | cons m ms =>
    refine ⟨Entry.mk ((ms.map (fun q => q.2.cost)).foldl min m.2.cost)
      ((ms.foldl (fun best q => if q.2.cost < best.2.cost then q else best) m).2.next_hop),
      ?_⟩
    rfl

/-- C3: summarization soundness.  The addresses covered by the summarized
output equal the addresses covered by the parseable input prefixes; the
output has no more entries than the input table; and when the input prefixes
are pairwise disjoint and non-adjacent (strictly separated), the output
prefix set is exactly the input prefix set. -/
theorem c3_summarization_soundness (table : List (String × Entry)) :
    cover ((summarize_table table).map (·.1)) = cover ((buildRedesObj table).map (·.1)) ∧
    (summarize_table table).length ≤ table.length ∧
    (List.Pairwise sep ((buildRedesObj table).map (·.1)) →
      ∀ n : Net, n ∈ (summarize_table table).map (·.1) ↔
        n ∈ (buildRedesObj table).map (·.1)) := by
  have hval := buildRedesObj_keys_valid table
  refine ⟨?_, ?_, ?_⟩
  · rw [summarize_nets]
    exact (collapse_pipeline _ hval).1
  · have h1 : (summarize_table table).length =
        ((summarize_table table).map (·.1)).length := (List.length_map _ _).symm
    rw [h1, summarize_nets]
    calc (collapse ((buildRedesObj table).map (·.1))).length ≤
        ((buildRedesObj table).map (·.1)).length := (collapse_pipeline _ hval).2.1
      _ = (buildRedesObj table).length := List.length_map _ _
      _ ≤ table.length := buildRedesObj_length table
  · intro hsep n
    rw [summarize_nets]
    exact (collapse_sep_perm _ hval (buildRedesObj_keys_nodup table) hsep).mem_iff

theorem c3_summarization_soundness_witness :
    Net.mk 167772160 24 ∈
      (summarize_table [("10.0.0.0/24", ⟨0, "me"⟩), ("10.0.2.0/24", ⟨3, "B"⟩)]).map (·.1) ↔
    Net.mk 167772160 24 ∈
      (buildRedesObj [("10.0.0.0/24", ⟨0, "me"⟩), ("10.0.2.0/24", ⟨3, "B"⟩)]).map (·.1) :=
  (c3_summarization_soundness [("10.0.0.0/24", ⟨0, "me"⟩), ("10.0.2.0/24", ⟨3, "B"⟩)]).2.2
    (by decide) (Net.mk 167772160 24)

/-- Python's `min` over a non-empty list with initial element `m`:
the fold result attains the minimum of the costs, and is the first element
doing so (`min(..., key=...)` keeps the first minimum). -/
theorem foldl_min_argmin : ∀ (ms : List (Net × Entry)) (m : Net × Entry),
    ((ms.foldl (fun best q => if q.2.cost < best.2.cost then q else best) m).2.cost =
      (ms.map (fun q => q.2.cost)).foldl min m.2.cost) ∧
    (∀ x ∈ m :: ms, (ms.map (fun q => q.2.cost)).foldl min m.2.cost ≤ x.2.cost) ∧
    ((m :: ms).find?
        (fun x => x.2.cost == (ms.map (fun q => q.2.cost)).foldl min m.2.cost) =
      some (ms.foldl (fun best q => if q.2.cost < best.2.cost then q else best) m)) := by
  intro ms
  induction ms with
  | nil =>
    intro m
    refine ⟨rfl, ?_, ?_⟩
    · intro x hx
      rcases List.mem_cons.mp hx with h | hx
      · rw [h]
        exact le_refl _
      · cases hx
    · simp [List.find?]
  | cons x ms ih =>
    intro m
    have hinit : (if x.2.cost < m.2.cost then x else m).2.cost = min m.2.cost x.2.cost := by
      split
      · next h => rw [min_eq_right (le_of_lt h)]
      · next h => rw [min_eq_left (by omega)]
    obtain ⟨ih1, ih2, ih3⟩ := ih (if x.2.cost < m.2.cost then x else m)
    have hc : ((x :: ms).map (fun q => q.2.cost)).foldl min m.2.cost =
        (ms.map (fun q => q.2.cost)).foldl min
          (if x.2.cost < m.2.cost then x else m).2.cost := by
      rw [hinit]
      simp [List.foldl_cons]
    have hfold : (x :: ms).foldl (fun best q => if q.2.cost < best.2.cost then q else best) m =
        ms.foldl (fun best q => if q.2.cost < best.2.cost then q else best)
          (if x.2.cost < m.2.cost then x else m) := rfl
    have hAle : (ms.map (fun q => q.2.cost)).foldl min
        (if x.2.cost < m.2.cost then x else m).2.cost ≤
        (if x.2.cost < m.2.cost then x else m).2.cost := ih2 _ (by simp)
    refine ⟨?_, ?_, ?_⟩
    · rw [hfold, hc, ih1]
    · intro y hy
      rw [hc]
      rcases List.mem_cons.mp hy with h | hy2
      · rw [h]
        exact le_trans hAle (by rw [hinit]; exact min_le_left _ _)
      · rcases List.mem_cons.mp hy2 with h | h
        · rw [h]
          exact le_trans hAle (by rw [hinit]; exact min_le_right _ _)
        · exact ih2 y (by simp [h])
    · rw [hfold, hc]
      by_cases hxm : x.2.cost < m.2.cost
      · -- the new head is strictly better: it replaces the initial element
        rw [if_pos hxm] at ih2 ih3 ⊢
        have hAx : (ms.map (fun q => q.2.cost)).foldl min x.2.cost ≤ x.2.cost :=
          ih2 x (by simp)
        have hmne : ¬(m.2.cost == (ms.map (fun q => q.2.cost)).foldl min x.2.cost) = true := by
          simp only [beq_iff_eq]
          omega
        rw [@List.find?_cons_of_neg (Net × Entry)
          (fun y => y.2.cost == List.foldl min x.2.cost (List.map (fun q => q.2.cost) ms))
          m (x :: ms) hmne]
        exact ih3
      · rw [if_neg hxm] at ih2 ih3 ⊢
        by_cases hm : m.2.cost = (ms.map (fun q => q.2.cost)).foldl min m.2.cost
        · rw [@List.find?_cons_of_pos (Net × Entry)
            (fun y => y.2.cost == List.foldl min m.2.cost (List.map (fun q => q.2.cost) ms))
            m (x :: ms) (by simp only [beq_iff_eq]; exact hm)]
          rw [@List.find?_cons_of_pos (Net × Entry)
            (fun y => y.2.cost == List.foldl min m.2.cost (List.map (fun q => q.2.cost) ms))
            m ms (by simp only [beq_iff_eq]; exact hm)] at ih3
          exact ih3
        · rw [@List.find?_cons_of_neg (Net × Entry)
            (fun y => y.2.cost == List.foldl min m.2.cost (List.map (fun q => q.2.cost) ms))
            m (x :: ms) (by simp only [beq_iff_eq]; exact hm)]
          rw [@List.find?_cons_of_neg (Net × Entry)
            (fun y => y.2.cost == List.foldl min m.2.cost (List.map (fun q => q.2.cost) ms))
            m ms (by simp only [beq_iff_eq]; exact hm)] at ih3
          have hAm : (ms.map (fun q => q.2.cost)).foldl min m.2.cost ≤ m.2.cost :=
            ih2 m (by simp)
          have hxne : ¬(x.2.cost == (ms.map (fun q => q.2.cost)).foldl min m.2.cost) = true := by
            simp only [beq_iff_eq]
            omega
          rw [@List.find?_cons_of_neg (Net × Entry)
            (fun y => y.2.cost == List.foldl min m.2.cost (List.map (fun q => q.2.cost) ms))
            x ms hxne]
          exact ih3

/-- Specification check for one summarized entry, written independently of
the summarizer's own fold: the member set (input entries contained in the
covering prefix) is non-empty, the output cost is a lower bound of the
member costs, and the first member attaining it supplies the next hop. -/
def checkSummaryEntry (redes : List (Net × Entry)) (p : Net × Entry) : Bool :=
  let members := redes.filter (fun q => q.1.subnetOf p.1)
  !members.isEmpty &&
  members.all (fun q => decide (p.2.cost ≤ q.2.cost)) &&
  (match members.find? (fun q => q.2.cost == p.2.cost) with
   | some q => q.2.next_hop == p.2.next_hop
   | none => false)

/-- C4: each covering prefix produced by the summarizer carries the minimum
cost among the input entries it contains, and the next hop of the first
member attaining that minimum (ties broken by examination order). -/
theorem c4_summary_min_cost (table : List (String × Entry)) :
    (summarize_table table).all (checkSummaryEntry (buildRedesObj table)) = true := by
  rw [List.all_eq_true]
  intro p hp
  have hp' : p ∈ (collapse ((buildRedesObj table).map (·.1))).filterMap
      (fun sum_net =>
        match (buildRedesObj table).filter (fun q => q.1.subnetOf sum_net) with
        | [] => none
        | m :: ms =>
          some (sum_net, Entry.mk ((ms.map (fun q => q.2.cost)).foldl min m.2.cost)
            ((ms.foldl (fun best q => if q.2.cost < best.2.cost then q else best)
              m).2.next_hop))) := hp
  obtain ⟨s, _, hfs⟩ := List.mem_filterMap.mp hp'
  revert hfs
  cases hfilter : (buildRedesObj table).filter (fun q => q.1.subnetOf s) with
  | nil => intro hfs; cases hfs
  | cons m ms =>
    intro hfs
    cases hfs
    unfold checkSummaryEntry
    obtain ⟨h1, h2, h3⟩ := foldl_min_argmin ms m
    simp only [hfilter]
    rw [Bool.and_eq_true, Bool.and_eq_true]
    refine ⟨⟨by simp, ?_⟩, ?_⟩
    · rw [List.all_eq_true]
      intro q hq
      simp only [decide_eq_true_eq]
      exact h2 q hq
    · rw [h3]
      simp

/-- C2 counterexample to the claim as stated: in the table
`{'10.0.0.0/24': {5, N}, '10.0.0.0/25': {3, M}}` the prefix `10.0.0.0/24`
is currently routed via `N`, yet the advertisement sent to `N` contains the
entry `10.0.0.0/24 -> {cost 3, next_hop M}` with a finite cost `3 < 16`:
the `/25` member won the cost tie-break, so poison reverse never fired for
this prefix. -/
theorem c2_poison_reverse_counterexample :
    lookupA [("10.0.0.0/24", Entry.mk 5 "N"), ("10.0.0.0/25", Entry.mk 3 "M")]
      "10.0.0.0/24" = some (Entry.mk 5 "N") ∧
    parseIPv4Net "10.0.0.0/24" = some (Net.mk 167772160 24) ∧
    sendTableTo [("10.0.0.0/24", Entry.mk 5 "N"), ("10.0.0.0/25", Entry.mk 3 "M")] "N" =
      [(Net.mk 167772160 24, Entry.mk 3 "M")] ∧
    (Entry.mk 3 "M").cost < INFINITY := by
  have hb : buildRedesObj [("10.0.0.0/24", Entry.mk 5 "N"), ("10.0.0.0/25", Entry.mk 3 "M")] =
      [(Net.mk 167772160 24, Entry.mk 5 "N"), (Net.mk 167772160 25, Entry.mk 3 "M")] := by
    decide
  have hm : mergeLoop [Net.mk 167772160 25, Net.mk 167772160 24] [] =
      [Net.mk 167772160 25, Net.mk 167772160 24] := by
    rw [mergeLoop_cons_none _ (by decide)]
    rw [mergeLoop_cons_none _ (by decide)]
    rw [mergeLoop_nil]
    rfl
  have hc : collapse ((buildRedesObj [("10.0.0.0/24", Entry.mk 5 "N"),
      ("10.0.0.0/25", Entry.mk 3 "M")]).map (·.1)) = [Net.mk 167772160 24] := by
    rw [hb]
    show dedupPass (List.insertionSort netLE
      (mergeLoop [Net.mk 167772160 25, Net.mk 167772160 24] [])) none =
      [Net.mk 167772160 24]
    rw [hm]
    decide
  have hs : summarize_table [("10.0.0.0/24", Entry.mk 5 "N"), ("10.0.0.0/25", Entry.mk 3 "M")] =
      [(Net.mk 167772160 24, Entry.mk 3 "M")] := by
    show ((collapse ((buildRedesObj [("10.0.0.0/24", Entry.mk 5 "N"),
        ("10.0.0.0/25", Entry.mk 3 "M")]).map (·.1))).filterMap
      (fun sum_net =>
        match (buildRedesObj [("10.0.0.0/24", Entry.mk 5 "N"),
            ("10.0.0.0/25", Entry.mk 3 "M")]).filter (fun q => q.1.subnetOf sum_net) with
        | [] => none
        | m :: ms =>
          some (sum_net, Entry.mk ((ms.map (fun q => q.2.cost)).foldl min m.2.cost)
            ((ms.foldl (fun best q => if q.2.cost < best.2.cost then q else best)
              m).2.next_hop)))) = [(Net.mk 167772160 24, Entry.mk 3 "M")]
    rw [hc, hb]
    decide
  refine ⟨by decide, by decide, ?_, by decide⟩
  show (summarize_table [("10.0.0.0/24", Entry.mk 5 "N"),
    ("10.0.0.0/25", Entry.mk 3 "M")]).map (poisonEntry "N") =
    [(Net.mk 167772160 24, Entry.mk 3 "M")]
  rw [hs]
  decide

end Roteador
